import Mathlib

/-!
# Verification of the TWF Flours delivery-cost calculator

Shallow embedding of `src/app.py` and `src/netlify/functions/app.py`
(Perfect-Cube/Delivery-Cost-Calculator-TWF-Flours).  Python floats are
modelled as rationals, `float('inf')` as `⊤` in `WithTop ℚ`, the
fallible core function as `Except`.  Order mappings are association
lists of product code and integer quantity, iterated in insertion
order like a Python dict.
-/

/-- The four locations of the fixed topology: three supply centers and
the delivery hub `L1` (`LOCATIONS` in `src/app.py`). -/
inductive Loc
  | C1 | C2 | C3 | L1
deriving DecidableEq, Repr

open Loc

/-- `CENTERS = ["C1", "C2", "C3"]` from `src/app.py`. -/
def CENTERS : List Loc := [C1, C2, C3]

/-- A distance table: association list from ordered location pairs to
distances, mirroring the Python dict `DISTANCES`. -/
abbrev DistTable := List ((Loc × Loc) × ℚ)

/-- The `DISTANCES` dict of `src/app.py`: symmetric entries, no direct
`C1 ↔ C3` edge. -/
def DISTANCES : DistTable :=
  [((C1, L1), 3), ((L1, C1), 3),
   ((C2, L1), 2.5), ((L1, C2), 2.5),
   ((C3, L1), 2), ((L1, C3), 2),
   ((C1, C2), 4), ((C2, C1), 4),
   ((C2, C3), 3), ((C3, C2), 3)]

/-- `dict.get` on a distance table. -/
def lookupDist (t : DistTable) (k : Loc × Loc) : Option ℚ :=
  (t.find? (fun e => decide (e.1 = k))).map (·.2)

/-- `get_distance(loc1, loc2)` from `src/app.py`: zero on equal
locations, otherwise the table entry tried in both orientations, `⊤`
(“infinity”) when no direct edge is defined. -/
def get_distance (t : DistTable) (a b : Loc) : WithTop ℚ :=
  if a = b then (0 : ℚ)
  else
    match lookupDist t (a, b) with
    | some d => (d : WithTop ℚ)
    | none =>
        match lookupDist t (b, a) with
        | some d => (d : WithTop ℚ)
        | none => ⊤

/-- The `epsilon = 1e-9` tolerance of `calculate_segment_cost`. -/
def epsilon : ℚ := 1e-9

/-- The per-unit-distance rate computed inside `calculate_segment_cost`
(the `cost_per_unit` local variable in `src/app.py`): 10 up to the
first tier, plus 8 per started block of 5 above it. -/
def cost_per_unit (w : ℚ) : ℚ :=
  if w ≤ epsilon then 10
  else if w ≤ 5 + epsilon then 10
  else 10 + 8 * (⌈(max 0 (w - 5 - epsilon)) / 5⌉ : ℤ)

/-- `calculate_segment_cost(weight, distance)` from `src/app.py`:
zero for non-positive or infinite distance, otherwise rate × distance. -/
def calculate_segment_cost (w : ℚ) (d : WithTop ℚ) : ℚ :=
  if d ≤ (0 : ℚ) ∨ d = ⊤ then 0
  else cost_per_unit w * d.untop' 0

/-- `_calculate_travel_cost_between_stops` from `src/app.py`: direct
segment when a direct distance exists, the hard-coded `C1 ↔ C3` detour
through `C2` otherwise, `⊤` in every remaining case.  Note the detour
branch compares the two *segment costs* (which are always finite
rationals) against infinity before summing them, exactly as the Python
does. -/
def travelCost (t : DistTable) (a b : Loc) (w : ℚ) : WithTop ℚ :=
  let dd := get_distance t a b
  if dd ≠ ⊤ then (calculate_segment_cost w dd : ℚ)
  else if (a = C1 ∧ b = C3) ∨ (a = C3 ∧ b = C1) then
    let cost_a_c2 := calculate_segment_cost w (get_distance t a C2)
    let cost_c2_b := calculate_segment_cost w (get_distance t C2 b)
    if (cost_a_c2 : WithTop ℚ) = ⊤ ∨ (cost_c2_b : WithTop ℚ) = ⊤ then ⊤
    else (cost_a_c2 + cost_c2_b : ℚ)
  else ⊤

/-- `_calculate_travel_cost_between_stops` from
`src/netlify/functions/app.py`: identical to the `src/app.py` version
except that the detour pair is recognised by list membership. -/
def travelCostN (t : DistTable) (a b : Loc) (w : ℚ) : WithTop ℚ :=
  let dd := get_distance t a b
  if dd ≠ ⊤ then (calculate_segment_cost w dd : ℚ)
  else if (a, b) ∈ [(C1, C3), (C3, C1)] then
    let cost_a_c2 := calculate_segment_cost w (get_distance t a C2)
    let cost_c2_b := calculate_segment_cost w (get_distance t C2 b)
    if (cost_a_c2 : WithTop ℚ) = ⊤ ∨ (cost_c2_b : WithTop ℚ) = ⊤ then ⊤
    else (cost_a_c2 + cost_c2_b : ℚ)
  else ⊤

/-- A catalog entry: home center and unit weight of a product. -/
structure ProductInfo where
  center : Loc
  weight : ℚ
deriving DecidableEq, Repr

/-- The `PRODUCTS` dict shared by both entry points. -/
def PRODUCTS : List (String × ProductInfo) :=
  [("A", ⟨C1, 3⟩), ("B", ⟨C1, 2⟩), ("C", ⟨C1, 8⟩),
   ("D", ⟨C2, 12⟩), ("E", ⟨C2, 25⟩), ("F", ⟨C2, 15⟩),
   ("G", ⟨C3, 0.5⟩), ("H", ⟨C3, 1⟩), ("I", ⟨C3, 2⟩)]

/-- `PRODUCTS.get(product_code)`. -/
def productFind (p : String) : Option ProductInfo :=
  (PRODUCTS.find? (fun e => decide (e.1 = p))).map (·.2)

/-- The aggregation state built by the parse-and-validate loop of
`_calculate_overall_minimum_cost`: `items_needed` keys,
`needed_centers` as a boolean predicate, `weight_from_center`, and
`total_weight`. -/
structure OrderAgg where
  items : List String
  needed : Loc → Bool
  wfc : Loc → ℚ
  total : ℚ

/-- The initial aggregation state. -/
def emptyAgg : OrderAgg :=
  { items := [], needed := fun _ => false, wfc := fun _ => 0, total := 0 }

/-- One iteration of the parse loop: add `quantity` of the product with
catalog entry `info` to the state. -/
def addItem (st : OrderAgg) (p : String) (info : ProductInfo) (q : ℤ) : OrderAgg :=
  { items := st.items ++ [p],
    needed := fun c => st.needed c || decide (c = info.center),
    wfc := fun c => if c = info.center then st.wfc c + info.weight * q else st.wfc c,
    total := st.total + info.weight * q }

/-- The parse-and-validate loop of `_calculate_overall_minimum_cost`
in `src/app.py`: stop with a descriptive error at the first negative
quantity or unknown product, skip quantity-0 entries before the
catalog lookup. -/
def parseOrder : List (String × ℤ) → OrderAgg → Except String OrderAgg
  | [], st => .ok st
  | (p, q) :: rest, st =>
    if q < 0 then
      .error ("Invalid quantity \x27" ++ toString q ++ "\x27 for product " ++ p ++ ".")
    else if q = 0 then parseOrder rest st
    else
      match productFind p with
      | none => .error ("Product " ++ p ++ " not found.")
      | some info => parseOrder rest (addItem st p info q)

/-- The parse-and-validate loop of `src/netlify/functions/app.py`:
same control flow, slightly different quantity-error message. -/
def parseOrderN : List (String × ℤ) → OrderAgg → Except String OrderAgg
  | [], st => .ok st
  | (p, q) :: rest, st =>
    if q < 0 then
      .error ("Invalid quantity \x27" ++ toString q ++ "\x27 for " ++ p ++ ".")
    else if q = 0 then parseOrderN rest st
    else
      match productFind p with
      | none => .error ("Product " ++ p ++ " not found.")
      | some info => parseOrderN rest (addItem st p info q)

/-- The inner leg loop shared by both strategies (and both deployment
copies, which duplicate it verbatim): starting at `a` carrying `w`,
visit the stops in order, pricing each leg with `tc` at the weight
carried at that point and picking up `wfc b` at each stop `b`.
Returns the accumulated cost (a `⊤` leg makes the whole permutation
`⊤`, which the Python realises by `break`-and-skip under the running
minimum), the final location, and the final carried weight. -/
def legsAccum (tc : Loc → Loc → ℚ → WithTop ℚ) (wfc : Loc → ℚ) :
    Loc → ℚ → List Loc → WithTop ℚ × Loc × ℚ
  | a, w, [] => (((0 : ℚ) : WithTop ℚ), a, w)
  | a, w, b :: rest =>
    let s := tc a b w
    let r := legsAccum tc wfc b (w + wfc b) rest
    (s + r.1, r.2)

/-- Strategy 1 (“Simple Pickup”) of `_calculate_overall_minimum_cost`
for one start center: visit all other needed centers in the best
order, then one final leg to `L1` carrying the total weight. -/
def simpleCost (tc : Loc → Loc → ℚ → WithTop ℚ) (st : OrderAgg) (start : Loc) :
    WithTop ℚ :=
  let pickup := CENTERS.filter fun c => st.needed c && decide (c ≠ start)
  if pickup = [] then
    if st.needed start = true ∨ CENTERS.filter st.needed = [] then
      tc start L1 st.total
    else ⊤
  else
    pickup.permutations.foldl
      (fun m perm =>
        min m ((legsAccum tc st.wfc start (st.wfc start) perm).1 +
          tc (legsAccum tc st.wfc start (st.wfc start) perm).2.1 L1 st.total))
      ⊤

/-- Strategy 2 (“Partial Delivery”) for one start center: only when the
start center has positive weight and more than one center is needed;
first leg start → `L1` with the start center's weight, then a second
trip from `L1` through the remaining needed centers in the best order,
ending at `L1` with the remaining weight.  (The Python guards the
empty-`remaining_centers` case with a `cost = 0` fallback even though
it is unreachable under the outer condition.) -/
def partialCost (tc : Loc → Loc → ℚ → WithTop ℚ) (st : OrderAgg) (start : Loc) :
    WithTop ℚ :=
  if 0 < st.wfc start ∧ 1 < (CENTERS.filter st.needed).length then
    let c1 := tc start L1 (st.wfc start)
    if c1 ≠ ⊤ then
      let remaining := CENTERS.filter fun c => st.needed c && decide (c ≠ start)
      let wrem := st.total - st.wfc start
      let cpf : WithTop ℚ :=
        if remaining = [] then ((0 : ℚ) : WithTop ℚ)
        else
          remaining.permutations.foldl
            (fun m perm =>
              min m ((legsAccum tc st.wfc L1 0 perm).1 +
                tc (legsAccum tc st.wfc L1 0 perm).2.1 L1 wrem))
            ⊤
      if cpf ≠ ⊤ then c1 + cpf else ⊤
    else ⊤
  else ⊤

/-- The outer loop of `_calculate_overall_minimum_cost`: the minimum
over all start centers of the two strategies. -/
def minOverall (tc : Loc → Loc → ℚ → WithTop ℚ) (st : OrderAgg) : WithTop ℚ :=
  CENTERS.foldl
    (fun m s => min m (min (simpleCost tc st s) (partialCost tc st s))) ⊤

/-- Python's built-in `round`: nearest integer, ties to the even
neighbour. -/
def pyRound (q : ℚ) : ℤ :=
  let f := ⌊q⌋
  let r := q - f
  if r < 0.5 then f
  else if 0.5 < r then f + 1
  else if 2 ∣ f then f else f + 1

/-- `_calculate_overall_minimum_cost(order_data)` from `src/app.py`,
generalised over the distance table it reads (the module-level
`DISTANCES` in the source): parse and validate, short-circuit an
empty aggregate to cost 0, otherwise search both strategies from all
start centers and round the minimum once at the end. -/
def calcMinCostT (t : DistTable) (order : List (String × ℤ)) : Except String ℤ :=
  match parseOrder order emptyAgg with
  | .error e => .error e
  | .ok st =>
    if st.items = [] then .ok 0
    else
      match minOverall (travelCost t) st with
      | ⊤ => .error "No valid delivery path found for the order."
      | (m : ℚ) => .ok (pyRound m)

/-- `_calculate_overall_minimum_cost` of `src/app.py` on the
module-level `DISTANCES` table it actually reads. -/
def calcMinCost (order : List (String × ℤ)) : Except String ℤ :=
  calcMinCostT DISTANCES order

/-- `_calculate_overall_minimum_cost(order_data)` from
`src/netlify/functions/app.py`: the duplicated core, with its own
parse loop, travel-cost helper and final error string. -/
def calcMinCostN (order : List (String × ℤ)) : Except String ℤ :=
  match parseOrderN order emptyAgg with
  | .error e => .error e
  | .ok st =>
    if st.items = [] then .ok 0
    else
      match minOverall (travelCostN DISTANCES) st with
      | ⊤ => .error "No valid delivery path found."
      | (m : ℚ) => .ok (pyRound m)

/-! ## Effective distances and rate facts -/

/-- The effective priced distance between two locations under the
fixed `DISTANCES` table: the direct distance where an edge exists, and
4 + 3 = 7 for the detoured `C1 ↔ C3` pair. -/
def Ddist : Loc → Loc → ℚ
  | C1, C2 | C2, C1 => 4
  | C2, C3 | C3, C2 => 3
  | C1, C3 | C3, C1 => 7
  | C1, L1 | L1, C1 => 3
  | C2, L1 | L1, C2 => 2.5
  | C3, L1 | L1, C3 => 2
  | C1, C1 | C2, C2 | C3, C3 | L1, L1 => 0

theorem Ddist_nonneg (a b : Loc) : 0 ≤ Ddist a b := by
  cases a <;> cases b <;> norm_num [Ddist]

theorem Ddist_symm (a b : Loc) : Ddist a b = Ddist b a := by
  cases a <;> cases b <;> norm_num [Ddist]

/-- The distances satisfy the triangle inequality through any
intermediate *center* (through the hub `L1` they do not: the detoured
`C1 ↔ C3` distance 7 exceeds 3 + 2). -/
theorem Ddist_triangle (a m b : Loc) (hm : m ≠ L1) :
    Ddist a b ≤ Ddist a m + Ddist m b := by
  cases a <;> cases m <;> cases b <;> first
    | exact absurd rfl hm
    | norm_num [Ddist]

theorem cost_per_unit_ge_ten (w : ℚ) : 10 ≤ cost_per_unit w := by
  unfold cost_per_unit
  have h : (0 : ℤ) ≤ ⌈(max 0 (w - 5 - epsilon)) / 5⌉ :=
    Int.ceil_nonneg (by positivity)
  have h' : (0 : ℚ) ≤ (⌈(max 0 (w - 5 - epsilon)) / 5⌉ : ℤ) := by
    exact_mod_cast h
  split_ifs <;> linarith

theorem cost_per_unit_pos (w : ℚ) : 0 < cost_per_unit w :=
  lt_of_lt_of_le (by norm_num) (cost_per_unit_ge_ten w)

theorem cost_per_unit_mono {w w' : ℚ} (h : w ≤ w') :
    cost_per_unit w ≤ cost_per_unit w' := by
  unfold cost_per_unit
  have hceil : (⌈(max 0 (w - 5 - epsilon)) / 5⌉ : ℤ) ≤
      ⌈(max 0 (w' - 5 - epsilon)) / 5⌉ := by
    apply Int.ceil_le_ceil
    have : max 0 (w - 5 - epsilon) ≤ max 0 (w' - 5 - epsilon) :=
      max_le_max le_rfl (by linarith)
    linarith
  have hcast : ((⌈(max 0 (w - 5 - epsilon)) / 5⌉ : ℤ) : ℚ) ≤
      ((⌈(max 0 (w' - 5 - epsilon)) / 5⌉ : ℤ) : ℚ) := by exact_mod_cast hceil
  have h0 : (0 : ℤ) ≤ ⌈(max 0 (w' - 5 - epsilon)) / 5⌉ :=
    Int.ceil_nonneg (by positivity)
  have h0' : (0 : ℚ) ≤ ((⌈(max 0 (w' - 5 - epsilon)) / 5⌉ : ℤ) : ℚ) := by
    exact_mod_cast h0
  split_ifs <;> linarith

/-- The rational-valued travel cost of the fixed-table resolver:
rate of the carried weight times the effective distance. -/
def qtravel (a b : Loc) (w : ℚ) : ℚ := cost_per_unit w * Ddist a b

theorem qtravel_nonneg (a b : Loc) (w : ℚ) : 0 ≤ qtravel a b w :=
  mul_nonneg (le_of_lt (cost_per_unit_pos w)) (Ddist_nonneg a b)

theorem qtravel_mono (a b : Loc) {w w' : ℚ} (h : w ≤ w') :
    qtravel a b w ≤ qtravel a b w' :=
  mul_le_mul_of_nonneg_right (cost_per_unit_mono h) (Ddist_nonneg a b)

theorem qtravel_triangle (a m b : Loc) (hm : m ≠ L1) (w : ℚ) :
    qtravel a b w ≤ qtravel a m w + qtravel m b w := by
  unfold qtravel
  have h := mul_le_mul_of_nonneg_left (Ddist_triangle a m b hm)
    (le_of_lt (cost_per_unit_pos w))
  linarith [h]

theorem calculate_segment_cost_zero (w : ℚ) :
    calculate_segment_cost w ((0 : ℚ) : WithTop ℚ) = 0 := by
  unfold calculate_segment_cost
  rw [if_pos (Or.inl le_rfl)]

theorem calculate_segment_cost_coe_pos (w d : ℚ) (hd : 0 < d) :
    calculate_segment_cost w ((d : ℚ) : WithTop ℚ) = cost_per_unit w * d := by
  unfold calculate_segment_cost
  have h : ¬(((d : ℚ) : WithTop ℚ) ≤ ((0 : ℚ) : WithTop ℚ) ∨
      ((d : ℚ) : WithTop ℚ) = ⊤) :=
    not_or.mpr ⟨by rw [WithTop.coe_le_coe]; exact not_le.mpr hd, WithTop.coe_ne_top⟩
  rw [if_neg h, WithTop.untop'_coe]

/-- On the fixed table, the resolver always returns the finite cost
`qtravel`: every pair has either a direct edge or the named detour. -/
theorem travelCost_eval (a b : Loc) (w : ℚ) :
    travelCost DISTANCES a b w = ((qtravel a b w : ℚ) : WithTop ℚ) := by
  cases a <;> cases b <;>
    first
      | (show ((calculate_segment_cost w ((0 : ℚ) : WithTop ℚ) : ℚ) : WithTop ℚ) = _
         rw [calculate_segment_cost_zero, WithTop.coe_eq_coe]
         simp [qtravel, Ddist])
      | (show ((calculate_segment_cost w ((2 : ℚ) : WithTop ℚ) : ℚ) : WithTop ℚ) = _
         rw [calculate_segment_cost_coe_pos w 2 (by norm_num), WithTop.coe_eq_coe]
         simp [qtravel, Ddist])
      | (show ((calculate_segment_cost w ((3 : ℚ) : WithTop ℚ) : ℚ) : WithTop ℚ) = _
         rw [calculate_segment_cost_coe_pos w 3 (by norm_num), WithTop.coe_eq_coe]
         simp [qtravel, Ddist])
      | (show ((calculate_segment_cost w ((4 : ℚ) : WithTop ℚ) : ℚ) : WithTop ℚ) = _
         rw [calculate_segment_cost_coe_pos w 4 (by norm_num), WithTop.coe_eq_coe]
         simp [qtravel, Ddist])
      | (show ((calculate_segment_cost w ((2.5 : ℚ) : WithTop ℚ) : ℚ) : WithTop ℚ) = _
         rw [calculate_segment_cost_coe_pos w 2.5 (by norm_num), WithTop.coe_eq_coe]
         simp [qtravel, Ddist])
      | (show ((calculate_segment_cost w ((4 : ℚ) : WithTop ℚ) +
               calculate_segment_cost w ((3 : ℚ) : WithTop ℚ) : ℚ) : WithTop ℚ) = _
         rw [calculate_segment_cost_coe_pos w 4 (by norm_num),
           calculate_segment_cost_coe_pos w 3 (by norm_num), WithTop.coe_eq_coe]
         simp only [qtravel, Ddist]
         ring)
      | (show ((calculate_segment_cost w ((3 : ℚ) : WithTop ℚ) +
               calculate_segment_cost w ((4 : ℚ) : WithTop ℚ) : ℚ) : WithTop ℚ) = _
         rw [calculate_segment_cost_coe_pos w 3 (by norm_num),
           calculate_segment_cost_coe_pos w 4 (by norm_num), WithTop.coe_eq_coe]
         simp only [qtravel, Ddist]
         ring)

/-- The netlify copy of the resolver agrees with the `src/app.py` one
on the fixed table. -/
theorem travelCostN_eq (a b : Loc) (w : ℚ) :
    travelCostN DISTANCES a b w = travelCost DISTANCES a b w := by
  cases a <;> cases b <;> rfl

/-! ## Running minima over candidate lists -/

/-- The running minimum the Python keeps over a list of candidate
costs, starting from infinity. -/
def minList (l : List (WithTop ℚ)) : WithTop ℚ := l.foldr min ⊤

theorem minList_le {l : List (WithTop ℚ)} {x : WithTop ℚ} (hx : x ∈ l) :
    minList l ≤ x := by
  induction l with
  | nil => cases hx
  | cons a l ih =>
      rcases List.mem_cons.mp hx with h | h
      · rw [h]; exact min_le_left _ _
      · exact le_trans (min_le_right _ _) (ih h)

theorem le_minList {l : List (WithTop ℚ)} {c : WithTop ℚ}
    (h : ∀ x ∈ l, c ≤ x) : c ≤ minList l := by
  induction l with
  | nil => exact le_top
  | cons a l ih =>
      exact le_min (h a (List.mem_cons_self a l))
        (ih fun x hx => h x (List.mem_cons_of_mem a hx))

theorem foldl_min_eq {α : Type} (g : α → WithTop ℚ) (l : List α) :
    ∀ a : WithTop ℚ,
      l.foldl (fun m x => min m (g x)) a = min a (minList (l.map g)) := by
  induction l with
  | nil => intro a; simp [minList]
  | cons b l ih =>
      intro a
      simp only [List.foldl_cons, List.map_cons, minList, List.foldr_cons]
      rw [ih]
      rw [min_assoc]
      rfl

theorem minList_map_ne_top {α : Type} (g : α → ℚ) (l : List α) (hl : l ≠ []) :
    minList (l.map fun x => ((g x : ℚ) : WithTop ℚ)) ≠ ⊤ := by
  cases l with
  | nil => exact absurd rfl hl
  | cons a l =>
      have hle : minList ((a :: l).map fun x => ((g x : ℚ) : WithTop ℚ)) ≤
          ((g a : ℚ) : WithTop ℚ) :=
        minList_le (by simp)
      exact ne_top_of_le_ne_top WithTop.coe_ne_top hle

/-! ## Rational-level route costs -/

/-- Rational-valued leg accumulator, mirroring `legsAccum` on the
fixed table where no leg is unreachable. -/
def qlegs (wfc : Loc → ℚ) : Loc → ℚ → List Loc → ℚ × Loc × ℚ
  | a, w, [] => (0, a, w)
  | a, w, b :: rest =>
    let r := qlegs wfc b (w + wfc b) rest
    (qtravel a b w + r.1, r.2)

theorem legsAccum_eval (wfc : Loc → ℚ) :
    ∀ (l : List Loc) (a : Loc) (w : ℚ),
      legsAccum (travelCost DISTANCES) wfc a w l =
        ((((qlegs wfc a w l).1 : ℚ) : WithTop ℚ), (qlegs wfc a w l).2) := by
  intro l
  induction l with
  | nil => intro a w; rfl
  | cons b rest ih =>
      intro a w
      simp only [legsAccum, qlegs, ih, travelCost_eval, WithTop.coe_add]

/-- The cost of finishing a route: travel the listed stops from `a`
carrying `w`, then one final leg to the hub carrying `final`. -/
def restCost (wfc : Loc → ℚ) (final : ℚ) (a : Loc) (w : ℚ) (l : List Loc) : ℚ :=
  (qlegs wfc a w l).1 + qtravel (qlegs wfc a w l).2.1 L1 final

theorem restCost_nil (wfc : Loc → ℚ) (final : ℚ) (a : Loc) (w : ℚ) :
    restCost wfc final a w [] = qtravel a L1 final := by
  simp [restCost, qlegs]

theorem restCost_cons (wfc : Loc → ℚ) (final : ℚ) (a b : Loc) (w : ℚ)
    (l : List Loc) :
    restCost wfc final a w (b :: l) =
      qtravel a b w + restCost wfc final b (w + wfc b) l := by
  simp [restCost, qlegs, add_assoc]

theorem restCost_nonneg (wfc : Loc → ℚ) (final : ℚ) :
    ∀ (l : List Loc) (a : Loc) (w : ℚ), 0 ≤ restCost wfc final a w l := by
  intro l
  induction l with
  | nil => intro a w; rw [restCost_nil]; exact qtravel_nonneg _ _ _
  | cons b rest ih =>
      intro a w
      rw [restCost_cons]
      exact add_nonneg (qtravel_nonneg _ _ _) (ih b (w + wfc b))

theorem restCost_mono {W W' : Loc → ℚ} (hW : ∀ c, W c ≤ W' c) :
    ∀ (l : List Loc) (a : Loc) {w w' f f' : ℚ},
      w ≤ w' → f ≤ f' → restCost W f a w l ≤ restCost W' f' a w' l := by
  intro l
  induction l with
  | nil =>
      intro a w w' f f' _ hf
      rw [restCost_nil, restCost_nil]
      exact qtravel_mono _ _ hf
  | cons b rest ih =>
      intro a w w' f f' hw hf
      rw [restCost_cons, restCost_cons]
      exact add_le_add (qtravel_mono _ _ hw)
        (ih b (add_le_add hw (hW b)) hf)

/-- Full Strategy-1 route cost at the rational level. -/
def qcostA (wfc : Loc → ℚ) (total : ℚ) (start : Loc) (perm : List Loc) : ℚ :=
  restCost wfc total start (wfc start) perm

/-- Full Strategy-2 route cost at the rational level: first delivery
leg, then the second trip from the hub through `perm` and back. -/
def qcostB (wfc : Loc → ℚ) (total : ℚ) (start : Loc) (perm : List Loc) : ℚ :=
  qtravel start L1 (wfc start) + restCost wfc (total - wfc start) L1 0 perm

theorem qcostA_nonneg (wfc : Loc → ℚ) (total : ℚ) (start : Loc)
    (perm : List Loc) : 0 ≤ qcostA wfc total start perm :=
  restCost_nonneg _ _ _ _ _

theorem qcostB_nonneg (wfc : Loc → ℚ) (total : ℚ) (start : Loc)
    (perm : List Loc) : 0 ≤ qcostB wfc total start perm :=
  add_nonneg (qtravel_nonneg _ _ _) (restCost_nonneg _ _ _ _ _)

/-! ## Bridging the embedded search to rational route costs -/

theorem add_minList (x : WithTop ℚ) (l : List (WithTop ℚ)) :
    x + minList l = minList (l.map fun y => x + y) := by
  induction l with
  | nil => simp [minList]
  | cons a l ih =>
      simp only [minList, List.foldr_cons, List.map_cons]
      rw [← minList, ← minList, ← ih, min_add_add_left]

theorem permutations_ne_nil {α : Type} (l : List α) : l.permutations ≠ [] :=
  List.ne_nil_of_mem (List.mem_permutations.mpr (List.Perm.refl l))

/-- The pickup list `list(needed_centers - {start_center})`, realised
with the deterministic order of `CENTERS` (the minimum over its
permutations does not depend on the iteration order of the Python
set). -/
def pickupList (st : OrderAgg) (s : Loc) : List Loc :=
  CENTERS.filter fun c => st.needed c && decide (c ≠ s)

theorem simpleCost_eq (st : OrderAgg) (s : Loc) :
    simpleCost (travelCost DISTANCES) st s =
      if pickupList st s = [] then
        if st.needed s = true ∨ CENTERS.filter st.needed = [] then
          ((qcostA st.wfc st.total s [] : ℚ) : WithTop ℚ)
        else ⊤
      else
        minList ((pickupList st s).permutations.map
          fun π => ((qcostA st.wfc st.total s π : ℚ) : WithTop ℚ)) := by
  simp only [simpleCost, pickupList]
  by_cases hp : List.filter (fun c => st.needed c && decide (c ≠ s)) CENTERS = []
  · rw [if_pos hp, if_pos hp]
    by_cases hc : st.needed s = true ∨ CENTERS.filter st.needed = []
    · rw [if_pos hc, if_pos hc, travelCost_eval]
      congr 1
      rw [qcostA, restCost_nil]
    · rw [if_neg hc, if_neg hc]
  · rw [if_neg hp, if_neg hp, foldl_min_eq, min_eq_right le_top]
    congr 1
    apply List.map_congr_left
    intro π _
    rw [legsAccum_eval, travelCost_eval, ← WithTop.coe_add]
    rfl

theorem partialCost_eq (st : OrderAgg) (s : Loc) :
    partialCost (travelCost DISTANCES) st s =
      if 0 < st.wfc s ∧ 1 < (CENTERS.filter st.needed).length then
        if pickupList st s = [] then
          ((qtravel s L1 (st.wfc s) : ℚ) : WithTop ℚ)
        else
          minList ((pickupList st s).permutations.map
            fun π => ((qcostB st.wfc st.total s π : ℚ) : WithTop ℚ))
      else ⊤ := by
  simp only [partialCost, pickupList]
  by_cases h1 : 0 < st.wfc s ∧ 1 < (CENTERS.filter st.needed).length
  · rw [if_pos h1, if_pos h1, travelCost_eval, if_pos WithTop.coe_ne_top]
    by_cases hp : List.filter (fun c => st.needed c && decide (c ≠ s)) CENTERS = []
    · rw [if_pos hp, if_pos hp, if_pos WithTop.coe_ne_top, ← WithTop.coe_add,
        add_zero]
    · rw [if_neg hp, if_neg hp]
      have hfold :
          (CENTERS.filter fun c => st.needed c && decide (c ≠ s)).permutations.foldl
              (fun m perm =>
                min m ((legsAccum (travelCost DISTANCES) st.wfc L1 0 perm).1 +
                  travelCost DISTANCES
                    (legsAccum (travelCost DISTANCES) st.wfc L1 0 perm).2.1 L1
                    (st.total - st.wfc s)))
              ⊤ =
            minList
              ((CENTERS.filter fun c => st.needed c && decide (c ≠ s)).permutations.map
                fun π =>
                  ((restCost st.wfc (st.total - st.wfc s) L1 0 π : ℚ) : WithTop ℚ)) := by
        rw [foldl_min_eq, min_eq_right le_top]
        congr 1
        apply List.map_congr_left
        intro π _
        rw [legsAccum_eval, travelCost_eval, ← WithTop.coe_add]
        rfl
      rw [hfold]
      have hne :
          minList
              ((CENTERS.filter fun c => st.needed c && decide (c ≠ s)).permutations.map
                fun π =>
                  ((restCost st.wfc (st.total - st.wfc s) L1 0 π : ℚ) : WithTop ℚ)) ≠
            ⊤ := by
        exact minList_map_ne_top _ _ (permutations_ne_nil _)
      rw [if_pos hne, add_minList, List.map_map]
      congr 1
  · rw [if_neg h1, if_neg h1]

theorem minOverall_eq (tc : Loc → Loc → ℚ → WithTop ℚ) (st : OrderAgg) :
    minOverall tc st =
      minList (CENTERS.map fun s =>
        min (simpleCost tc st s) (partialCost tc st s)) := by
  unfold minOverall
  rw [foldl_min_eq, min_eq_right le_top]

theorem minOverall_le_start (tc : Loc → Loc → ℚ → WithTop ℚ) (st : OrderAgg)
    {s : Loc} (hs : s ∈ CENTERS) :
    minOverall tc st ≤ min (simpleCost tc st s) (partialCost tc st s) := by
  rw [minOverall_eq]
  exact minList_le (List.mem_map.mpr ⟨s, hs, rfl⟩)

theorem le_minOverall (tc : Loc → Loc → ℚ → WithTop ℚ) (st : OrderAgg)
    {X : WithTop ℚ}
    (h : ∀ s ∈ CENTERS, X ≤ min (simpleCost tc st s) (partialCost tc st s)) :
    X ≤ minOverall tc st := by
  rw [minOverall_eq]
  apply le_minList
  intro x hx
  rcases List.mem_map.mp hx with ⟨s, hs, rfl⟩
  exact h s hs

theorem minOverall_le_qcostA (st : OrderAgg) {s : Loc} (hs : s ∈ CENTERS)
    {π : List Loc} (hπ : π.Perm (pickupList st s))
    (hemp : π = [] → (st.needed s = true ∨ CENTERS.filter st.needed = [])) :
    minOverall (travelCost DISTANCES) st ≤
      ((qcostA st.wfc st.total s π : ℚ) : WithTop ℚ) := by
  refine le_trans (minOverall_le_start _ st hs) (le_trans (min_le_left _ _) ?_)
  rw [simpleCost_eq]
  by_cases hp : pickupList st s = []
  · have hπnil : π = [] := (hp ▸ hπ).eq_nil
    rw [if_pos hp, if_pos (hemp hπnil), hπnil]
  · rw [if_neg hp]
    exact minList_le (List.mem_map.mpr
      ⟨π, List.mem_permutations.mpr hπ, rfl⟩)

theorem minOverall_le_qcostB (st : OrderAgg) {s : Loc} (hs : s ∈ CENTERS)
    (hw : 0 < st.wfc s) (hlen : 1 < (CENTERS.filter st.needed).length)
    {π : List Loc} (hπ : π.Perm (pickupList st s)) :
    minOverall (travelCost DISTANCES) st ≤
      ((qcostB st.wfc st.total s π : ℚ) : WithTop ℚ) := by
  refine le_trans (minOverall_le_start _ st hs) (le_trans (min_le_right _ _) ?_)
  rw [partialCost_eq, if_pos ⟨hw, hlen⟩]
  by_cases hp : pickupList st s = []
  · have hπnil : π = [] := (hp ▸ hπ).eq_nil
    rw [if_pos hp, hπnil]
    rw [WithTop.coe_le_coe, qcostB]
    have := restCost_nonneg st.wfc (st.total - st.wfc s) [] L1 0
    linarith
  · rw [if_neg hp]
    exact minList_le (List.mem_map.mpr
      ⟨π, List.mem_permutations.mpr hπ, rfl⟩)

/-! ## Catalog facts and parse invariants -/

theorem productFind_mem {p : String} {info : ProductInfo}
    (h : productFind p = some info) : info.center ∈ CENTERS ∧ 0 < info.weight := by
  rcases Option.map_eq_some'.mp h with ⟨e, he, rfl⟩
  have hmem := List.mem_of_find?_eq_some he
  fin_cases hmem <;> exact ⟨by decide, by norm_num⟩

/-- Invariants of the aggregation state established by the parse
loop. -/
structure AggInv (st : OrderAgg) : Prop where
  wfc_nonneg : ∀ c, 0 ≤ st.wfc c
  not_needed : ∀ c, st.needed c = false → st.wfc c = 0
  needed_pos : ∀ c, st.needed c = true → 0 < st.wfc c
  total_eq : st.total = st.wfc C1 + st.wfc C2 + st.wfc C3
  items_pos : st.items ≠ [] → 0 < st.total

theorem aggInv_empty : AggInv emptyAgg where
  wfc_nonneg := fun _ => le_rfl
  not_needed := fun _ _ => rfl
  needed_pos := fun _ h => by simp [emptyAgg] at h
  total_eq := by norm_num [emptyAgg]
  items_pos := fun h => absurd rfl h

theorem aggInv_addItem {st : OrderAgg} (inv : AggInv st) (p : String)
    {info : ProductInfo} {q : ℤ} (hfind : productFind p = some info)
    (hq : 1 ≤ q) : AggInv (addItem st p info q) := by
  obtain ⟨hcmem, hwpos⟩ := productFind_mem hfind
  have hqQ : (1 : ℚ) ≤ (q : ℚ) := by exact_mod_cast hq
  have hwq : 0 < info.weight * q := mul_pos hwpos (lt_of_lt_of_le one_pos hqQ)
  have ht0 : 0 ≤ st.total := by
    rw [inv.total_eq]
    have := inv.wfc_nonneg C1
    have := inv.wfc_nonneg C2
    have := inv.wfc_nonneg C3
    linarith
  refine ⟨?_, ?_, ?_, ?_, ?_⟩
  · intro c
    simp only [addItem]
    split_ifs
    · exact add_nonneg (inv.wfc_nonneg c) (le_of_lt hwq)
    · exact inv.wfc_nonneg c
  · intro c h
    simp only [addItem, Bool.or_eq_false_iff, decide_eq_false_iff_not] at h
    simp only [addItem]
    rw [if_neg h.2]
    exact inv.not_needed c h.1
  · intro c h
    simp only [addItem, Bool.or_eq_true, decide_eq_true_eq] at h
    simp only [addItem]
    by_cases hc : c = info.center
    · rw [if_pos hc]
      exact add_pos_of_nonneg_of_pos (inv.wfc_nonneg c) hwq
    · rw [if_neg hc]
      rcases h with h | h
      · exact inv.needed_pos c h
      · exact absurd h hc
  · have hc3 : info.center = C1 ∨ info.center = C2 ∨ info.center = C3 := by
      simpa [CENTERS] using hcmem
    rcases hc3 with h | h | h
    · simp only [addItem, h, if_true, if_pos rfl, if_neg (show ¬(C2 = C1) by decide),
        if_neg (show ¬(C3 = C1) by decide)]
      rw [inv.total_eq]
      ring
    · simp only [addItem, h, if_true, if_pos rfl, if_neg (show ¬(C1 = C2) by decide),
        if_neg (show ¬(C3 = C2) by decide)]
      rw [inv.total_eq]
      ring
    · simp only [addItem, h, if_true, if_pos rfl, if_neg (show ¬(C1 = C3) by decide),
        if_neg (show ¬(C2 = C3) by decide)]
      rw [inv.total_eq]
      ring
  · intro _
    simp only [addItem]
    linarith

theorem parse_inv :
    ∀ (l : List (String × ℤ)) (st st' : OrderAgg),
      parseOrder l st = .ok st' → AggInv st → AggInv st' := by
  intro l
  induction l with
  | nil =>
      intro st st' h inv
      simp only [parseOrder] at h
      cases h
      exact inv
  | cons e rest ih =>
      intro st st' h inv
      obtain ⟨p, q⟩ := e
      simp only [parseOrder] at h
      split_ifs at h with h1 h2
      · exact ih st st' h inv
      · cases hf : productFind p with
        | none => rw [hf] at h; cases h
        | some info =>
            rw [hf] at h
            exact ih _ st' h (aggInv_addItem inv p hf (by omega))

theorem inv_needed_of_items {st : OrderAgg} (inv : AggInv st)
    (h : st.items ≠ []) : ∃ c ∈ CENTERS, st.needed c = true := by
  by_contra hno
  push_neg at hno
  have h1 : st.wfc C1 = 0 :=
    inv.not_needed C1 (Bool.not_eq_true _ ▸ hno C1 (by decide))
  have h2 : st.wfc C2 = 0 :=
    inv.not_needed C2 (Bool.not_eq_true _ ▸ hno C2 (by decide))
  have h3 : st.wfc C3 = 0 :=
    inv.not_needed C3 (Bool.not_eq_true _ ▸ hno C3 (by decide))
  have := inv.items_pos h
  rw [inv.total_eq, h1, h2, h3] at this
  norm_num at this

/-! ## Facts about Python rounding -/

theorem pyRound_floor_le (q : ℚ) : ⌊q⌋ ≤ pyRound q := by
  simp only [pyRound]
  split_ifs <;> omega

theorem pyRound_le_floor_add_one (q : ℚ) : pyRound q ≤ ⌊q⌋ + 1 := by
  simp only [pyRound]
  split_ifs <;> omega

theorem pyRound_nonneg {q : ℚ} (h : 0 ≤ q) : 0 ≤ pyRound q := by
  have hf : (0 : ℤ) ≤ ⌊q⌋ := Int.floor_nonneg.mpr h
  have := pyRound_floor_le q
  omega

theorem pyRound_close (q : ℚ) : |((pyRound q : ℤ) : ℚ) - q| ≤ 1/2 := by
  have hfl : (⌊q⌋ : ℚ) ≤ q := Int.floor_le q
  have hfu : q < (⌊q⌋ : ℚ) + 1 := Int.lt_floor_add_one q
  have h05 : (0.5 : ℚ) = 1/2 := by norm_num
  rw [abs_le]
  simp only [pyRound]
  rw [h05]
  split_ifs <;> push_cast <;> constructor <;> linarith

theorem pyRound_mono {q q' : ℚ} (h : q ≤ q') : pyRound q ≤ pyRound q' := by
  have hf : ⌊q⌋ ≤ ⌊q'⌋ := Int.floor_le_floor h
  rcases lt_or_eq_of_le hf with hlt | heq
  · have h1 := pyRound_le_floor_add_one q
    have h2 := pyRound_floor_le q'
    omega
  · have hr : q - (⌊q⌋ : ℚ) ≤ q' - (⌊q'⌋ : ℚ) := by
      rw [← heq]
      linarith
    simp only [pyRound]
    rw [← heq]
    split_ifs <;> first
      | omega
      | (exfalso
         rw [← heq] at hr
         simp only [not_lt] at *
         linarith)

/-! ## Parse behaviour -/

theorem parse_zero :
    ∀ (l : List (String × ℤ)) (st : OrderAgg),
      (∀ e ∈ l, e.2 = (0 : ℤ)) → parseOrder l st = .ok st := by
  intro l
  induction l with
  | nil => intro st _; rfl
  | cons e rest ih =>
      intro st h
      obtain ⟨p, q⟩ := e
      have hq : q = 0 := h (p, q) (List.mem_cons_self _ _)
      simp only [parseOrder, hq]
      norm_num
      exact ih st fun e he => h e (List.mem_cons_of_mem _ he)

theorem parse_ok_of_valid :
    ∀ (l : List (String × ℤ)) (st : OrderAgg),
      (∀ e ∈ l, 0 ≤ e.2 ∧ (productFind e.1).isSome) →
      ∃ st', parseOrder l st = .ok st' := by
  intro l
  induction l with
  | nil => intro st _; exact ⟨st, rfl⟩
  | cons e rest ih =>
      intro st h
      obtain ⟨p, q⟩ := e
      obtain ⟨hq, hfind⟩ := h (p, q) (List.mem_cons_self _ _)
      have hrest : ∀ e ∈ rest, 0 ≤ e.2 ∧ (productFind e.1).isSome :=
        fun e he => h e (List.mem_cons_of_mem _ he)
      simp only [parseOrder]
      rw [if_neg (by omega)]
      by_cases h0 : q = 0
      · rw [if_pos h0]
        exact ih st hrest
      · rw [if_neg h0]
        rcases Option.isSome_iff_exists.mp hfind with ⟨info, hinfo⟩
        rw [hinfo]
        exact ih _ hrest

theorem parse_err_unknown :
    ∀ (l : List (String × ℤ)) (st : OrderAgg),
      (∀ e ∈ l, 0 ≤ e.2) →
      (∃ e ∈ l, 1 ≤ e.2 ∧ productFind e.1 = none) →
      ∃ p q, (p, q) ∈ l ∧ 1 ≤ q ∧ productFind p = none ∧
        parseOrder l st = .error ("Product " ++ p ++ " not found.") := by
  intro l
  induction l with
  | nil => intro st _ h; rcases h with ⟨e, he, _⟩; cases he
  | cons e rest ih =>
      intro st hnn hex
      obtain ⟨p, q⟩ := e
      have hq : (0 : ℤ) ≤ q := hnn (p, q) (List.mem_cons_self _ _)
      have hnnr : ∀ e ∈ rest, 0 ≤ e.2 :=
        fun e he => hnn e (List.mem_cons_of_mem _ he)
      simp only [parseOrder]
      rw [if_neg (by omega)]
      by_cases h0 : q = 0
      · rw [if_pos h0]
        have hexr : ∃ e ∈ rest, 1 ≤ e.2 ∧ productFind e.1 = none := by
          rcases hex with ⟨e, he, h1, h2⟩
          rcases List.mem_cons.mp he with rfl | hmem
          · exact absurd h1 (by omega)
          · exact ⟨e, hmem, h1, h2⟩
        rcases ih st hnnr hexr with ⟨p', q', hmem, hq', hfind, heq⟩
        exact ⟨p', q', List.mem_cons_of_mem _ hmem, hq', hfind, heq⟩
      · rw [if_neg h0]
        cases hfind : productFind p with
        | none =>
            exact ⟨p, q, List.mem_cons_self _ _, by omega, hfind, rfl⟩
        | some info =>
            have hexr : ∃ e ∈ rest, 1 ≤ e.2 ∧ productFind e.1 = none := by
              rcases hex with ⟨e, he, h1, h2⟩
              rcases List.mem_cons.mp he with rfl | hmem
              · rw [hfind] at h2; cases h2
              · exact ⟨e, hmem, h1, h2⟩
            rcases ih (addItem st p info q) hnnr hexr with
              ⟨p', q', hmem, hq', hfind', heq⟩
            exact ⟨p', q', List.mem_cons_of_mem _ hmem, hq', hfind', heq⟩

/-! ## Feasibility and non-negativity of the search -/

theorem minOverall_ne_top (st : OrderAgg) :
    minOverall (travelCost DISTANCES) st ≠ ⊤ := by
  have hbound : minOverall (travelCost DISTANCES) st ≤
      ((qcostA st.wfc st.total C1 (pickupList st C1) : ℚ) : WithTop ℚ) := by
    apply minOverall_le_qcostA st (by decide) (List.Perm.refl _)
    intro hp
    by_cases hev : CENTERS.filter st.needed = []
    · exact Or.inr hev
    · left
      rcases List.exists_mem_of_ne_nil _ hev with ⟨c, hc⟩
      obtain ⟨hcC, hcn⟩ := List.mem_filter.mp hc
      by_cases hc1 : c = C1
      · rw [← hc1]; exact hcn
      · exfalso
        have : c ∈ pickupList st C1 := by
          apply List.mem_filter.mpr
          refine ⟨hcC, ?_⟩
          rw [Bool.and_eq_true, decide_eq_true_eq]
          exact ⟨hcn, hc1⟩
        rw [hp] at this
        cases this
  exact ne_top_of_le_ne_top WithTop.coe_ne_top hbound

theorem minOverall_nonneg (st : OrderAgg) :
    (((0 : ℚ) : WithTop ℚ)) ≤ minOverall (travelCost DISTANCES) st := by
  apply le_minOverall
  intro s _
  apply le_min
  · rw [simpleCost_eq]
    split_ifs
    · rw [WithTop.coe_le_coe]
      exact qcostA_nonneg _ _ _ _
    · exact le_top
    · apply le_minList
      intro x hx
      rcases List.mem_map.mp hx with ⟨π, _, rfl⟩
      rw [WithTop.coe_le_coe]
      exact qcostA_nonneg _ _ _ _
  · rw [partialCost_eq]
    split_ifs
    · rw [WithTop.coe_le_coe]
      exact qtravel_nonneg _ _ _
    · apply le_minList
      intro x hx
      rcases List.mem_map.mp hx with ⟨π, _, rfl⟩
      rw [WithTop.coe_le_coe]
      exact qcostB_nonneg _ _ _ _
    · exact le_top

/-! ## Claim C1: segment pricing -/

/-- The tariff exactly as the specification words it (claim C1):
rate 10 up to `5 + ε`, and `10 + 8·⌈(w − 5 − ε)/5⌉` above. -/
def specRate (w : ℚ) : ℚ :=
  if w ≤ 5 + epsilon then 10 else 10 + 8 * (⌈(w - 5 - epsilon) / 5⌉ : ℤ)

theorem cost_per_unit_eq_specRate (w : ℚ) : cost_per_unit w = specRate w := by
  unfold cost_per_unit specRate
  have heps : (0 : ℚ) < epsilon := by norm_num [epsilon]
  by_cases h1 : w ≤ epsilon
  · rw [if_pos h1, if_pos (by linarith)]
  · rw [if_neg h1]
    by_cases h2 : w ≤ 5 + epsilon
    · rw [if_pos h2, if_pos h2]
    · rw [if_neg h2, if_neg h2,
        max_eq_right (le_of_lt (by linarith : (0 : ℚ) < w - 5 - epsilon))]

theorem specRate_five : specRate 5 = 10 := by
  norm_num [specRate, epsilon]

theorem specRate_five_tick : specRate 5.0001 = 18 := by
  have hle : ¬((5.0001 : ℚ) ≤ 5 + epsilon) := by norm_num [epsilon]
  have hceil : (⌈((5.0001 : ℚ) - 5 - epsilon) / 5⌉ : ℤ) = 1 := by
    rw [Int.ceil_eq_iff]
    constructor <;> norm_num [epsilon]
  rw [specRate, if_neg hle, hceil]
  norm_num

theorem specRate_ten : specRate 10 = 18 := by
  have hle : ¬((10 : ℚ) ≤ 5 + epsilon) := by norm_num [epsilon]
  have hceil : (⌈((10 : ℚ) - 5 - epsilon) / 5⌉ : ℤ) = 1 := by
    rw [Int.ceil_eq_iff]
    constructor <;> norm_num [epsilon]
  rw [specRate, if_neg hle, hceil]
  norm_num

theorem specRate_ten_tick : specRate 10.0001 = 26 := by
  have hle : ¬((10.0001 : ℚ) ≤ 5 + epsilon) := by norm_num [epsilon]
  have hceil : (⌈((10.0001 : ℚ) - 5 - epsilon) / 5⌉ : ℤ) = 2 := by
    rw [Int.ceil_eq_iff]
    constructor <;> norm_num [epsilon]
  rw [specRate, if_neg hle, hceil]
  norm_num

/-- C1: for every weight `w ≥ 0` and finite distance `d > 0` the
segment price is `rate(w) · d` with the spec's tiered rate, and the
rate takes the values 10, 18, 18, 26 at weights 5, 5.0001, 10 and
10.0001 respectively. -/
theorem segment_price_matches_spec (w d : ℚ) (hw : 0 ≤ w) (hd : 0 < d) :
    calculate_segment_cost w ((d : ℚ) : WithTop ℚ) = specRate w * d ∧
      specRate 5 = 10 ∧ specRate 5.0001 = 18 ∧ specRate 10 = 18 ∧
      specRate 10.0001 = 26 := by
  refine ⟨?_, specRate_five, specRate_five_tick, specRate_ten, specRate_ten_tick⟩
  rw [calculate_segment_cost_coe_pos w d hd, cost_per_unit_eq_specRate]

/-- Witness for C1 at `w = 5`, `d = 1`. -/
theorem segment_price_matches_spec_witness :
    (0 : ℚ) ≤ 5 ∧ (0 : ℚ) < 1 ∧
      (calculate_segment_cost 5 ((1 : ℚ) : WithTop ℚ) = specRate 5 * 1 ∧
        specRate 5 = 10 ∧ specRate 5.0001 = 18 ∧ specRate 10 = 18 ∧
        specRate 10.0001 = 26) :=
  ⟨by simp, by simp, segment_price_matches_spec 5 1 (by simp) (by simp)⟩

/-! ## Claim C2: the forced detour -/

/-- C2: the resolved `C1 → C3` leg cost equals the sum of the two
sub-legs through `C2` at the same full weight, and is at least what a
hypothetical direct edge of distance `d(C1,C2) + d(C2,C3)` would cost
at that weight. -/
theorem detour_leg_cost (w : ℚ) (hw : 0 ≤ w) :
    ∃ c13 c12 c23 : ℚ,
      travelCost DISTANCES C1 C3 w = ((c13 : ℚ) : WithTop ℚ) ∧
      travelCost DISTANCES C1 C2 w = ((c12 : ℚ) : WithTop ℚ) ∧
      travelCost DISTANCES C2 C3 w = ((c23 : ℚ) : WithTop ℚ) ∧
      c13 = c12 + c23 ∧
      calculate_segment_cost w ((Ddist C1 C2 + Ddist C2 C3 : ℚ) : WithTop ℚ) ≤ c13 := by
  refine ⟨qtravel C1 C3 w, qtravel C1 C2 w, qtravel C2 C3 w,
    travelCost_eval C1 C3 w, travelCost_eval C1 C2 w, travelCost_eval C2 C3 w,
    ?_, ?_⟩
  · simp only [qtravel, Ddist]
    ring
  · apply le_of_eq
    rw [show Ddist C1 C2 + Ddist C2 C3 = (7 : ℚ) by norm_num [Ddist],
      calculate_segment_cost_coe_pos w 7 (by norm_num)]
    simp only [qtravel, Ddist]

/-- Witness for C2 at `w = 12`. -/
theorem detour_leg_cost_witness :
    (0 : ℚ) ≤ 12 ∧
      ∃ c13 c12 c23 : ℚ,
        travelCost DISTANCES C1 C3 12 = ((c13 : ℚ) : WithTop ℚ) ∧
        travelCost DISTANCES C1 C2 12 = ((c12 : ℚ) : WithTop ℚ) ∧
        travelCost DISTANCES C2 C3 12 = ((c23 : ℚ) : WithTop ℚ) ∧
        c13 = c12 + c23 ∧
        calculate_segment_cost 12
          ((Ddist C1 C2 + Ddist C2 C3 : ℚ) : WithTop ℚ) ≤ c13 :=
  ⟨by simp, detour_leg_cost 12 (by simp)⟩

/-! ## Claim C10: symmetry of the resolved leg cost -/

/-- C10: the route resolver is symmetric in its two endpoints for
every pair of locations and non-negative weight. -/
theorem leg_cost_symm (a b : Loc) (w : ℚ) (hw : 0 ≤ w) :
    travelCost DISTANCES a b w = travelCost DISTANCES b a w := by
  rw [travelCost_eval, travelCost_eval, WithTop.coe_eq_coe]
  unfold qtravel
  rw [Ddist_symm]

/-- Witness for C10 at `C1`, `C3`, `w = 7`. -/
theorem leg_cost_symm_witness :
    (0 : ℚ) ≤ 7 ∧ travelCost DISTANCES C1 C3 7 = travelCost DISTANCES C3 C1 7 :=
  ⟨by simp, leg_cost_symm C1 C3 7 (by simp)⟩

/-! ## Claim C7: unreachable sub-legs of the detour -/

/-- The `DISTANCES` table with the `C1 ↔ C2` edge removed — the
hypothetical topology of claim C7 in which one sub-leg of the
`C1 → C2 → C3` detour has no defined distance. -/
def DISTANCES_NO_C1C2 : DistTable :=
  [((C1, L1), 3), ((L1, C1), 3),
   ((C2, L1), 2.5), ((L1, C2), 2.5),
   ((C3, L1), 2), ((L1, C3), 2),
   ((C2, C3), 3), ((C3, C2), 3)]

theorem cost_per_unit_one : cost_per_unit 1 = 10 := by
  unfold cost_per_unit
  rw [if_neg (by norm_num [epsilon]), if_pos (by norm_num [epsilon])]

/-- C7 (code behaviour at the claimed failing input): with the
`C1 ↔ C2` distance undefined, the resolver still returns the *finite*
cost 30 for the `C1 → C3` leg at weight 1 — the missing sub-leg is
priced 0 by `calculate_segment_cost`, and the resolver's guard
compares the (always finite) segment costs rather than the distances,
so `Unreachable` is not propagated as the spec requires. -/
theorem detour_missing_subleg_priced_zero :
    get_distance DISTANCES_NO_C1C2 C1 C2 = ⊤ ∧
      calculate_segment_cost 1 (get_distance DISTANCES_NO_C1C2 C1 C2) = 0 ∧
      travelCost DISTANCES_NO_C1C2 C1 C3 1 = ((30 : ℚ) : WithTop ℚ) := by
  have hd12 : get_distance DISTANCES_NO_C1C2 C1 C2 = ⊤ := rfl
  have hseg0 : calculate_segment_cost 1 (⊤ : WithTop ℚ) = 0 := by
    unfold calculate_segment_cost
    rw [if_pos (Or.inr rfl)]
  have hseg3 : calculate_segment_cost 1 ((3 : ℚ) : WithTop ℚ) = 30 := by
    rw [calculate_segment_cost_coe_pos 1 3 (by norm_num), cost_per_unit_one]
    norm_num
  refine ⟨hd12, by rw [hd12]; exact hseg0, ?_⟩
  show ((calculate_segment_cost 1 (get_distance DISTANCES_NO_C1C2 C1 C2) +
      calculate_segment_cost 1 (get_distance DISTANCES_NO_C1C2 C2 C3) : ℚ) :
      WithTop ℚ) = _
  rw [hd12]
  rw [show get_distance DISTANCES_NO_C1C2 C2 C3 = ((3 : ℚ) : WithTop ℚ) from rfl]
  rw [hseg0, hseg3]
  norm_num

/-! ## Claim C8: empty orders short-circuit to cost 0 -/

/-- C8: an order whose entries all have quantity 0 (in particular the
empty order) yields cost 0 for *every* distance table — the search is
never consulted. -/
theorem empty_order_cost_zero (t : DistTable) (order : List (String × ℤ))
    (h : ∀ e ∈ order, e.2 = (0 : ℤ)) : calcMinCostT t order = .ok 0 := by
  unfold calcMinCostT
  rw [parse_zero order emptyAgg h]
  rfl

/-- Witness for C8 on the real table and the order `{A: 0}`. -/
theorem empty_order_cost_zero_witness :
    (∀ e ∈ [(("A" : String), (0 : ℤ))], e.2 = (0 : ℤ)) ∧
      calcMinCostT DISTANCES [(("A" : String), (0 : ℤ))] = .ok 0 :=
  ⟨by simp, empty_order_cost_zero DISTANCES _ (by simp)⟩

/-! ## Claim C3: unknown products -/

/-- C3 as frozen is false at quantity 0: an unknown product with
quantity 0 is skipped before the catalog lookup and the calculation
returns cost 0 instead of a `ValidationError`. -/
theorem unknown_product_zero_qty_counterexample :
    productFind "Z" = none ∧
      calcMinCost [(("Z" : String), (0 : ℤ))] = .ok 0 :=
  ⟨rfl, rfl⟩

/-- C3 (amended): for an order whose quantities are all non-negative
and that contains an unknown product with *positive* quantity, the
calculation fails with the `Product ... not found.` validation error
naming an unknown positive-quantity product of the order. -/
theorem unknown_product_error (order : List (String × ℤ))
    (hnn : ∀ e ∈ order, 0 ≤ e.2)
    (hex : ∃ e ∈ order, 1 ≤ e.2 ∧ productFind e.1 = none) :
    ∃ p q, (p, q) ∈ order ∧ 1 ≤ q ∧ productFind p = none ∧
      calcMinCost order = .error ("Product " ++ p ++ " not found.") := by
  rcases parse_err_unknown order emptyAgg hnn hex with ⟨p, q, hm, hq, hf, heq⟩
  refine ⟨p, q, hm, hq, hf, ?_⟩
  unfold calcMinCost calcMinCostT
  rw [heq]

/-- Witness for the amended C3 on the order `{Z: 1}`. -/
theorem unknown_product_error_witness :
    (∀ e ∈ [(("Z" : String), (1 : ℤ))], 0 ≤ e.2) ∧
      ∃ p q, (p, q) ∈ [(("Z" : String), (1 : ℤ))] ∧ 1 ≤ q ∧
        productFind p = none ∧
        calcMinCost [(("Z" : String), (1 : ℤ))] =
          .error ("Product " ++ p ++ " not found.") :=
  ⟨by simp, unknown_product_error _ (by simp)
    ⟨(("Z" : String), (1 : ℤ)), by simp, by simp, rfl⟩⟩

/-! ## Claim C5: every valid order is feasible -/

/-- Reduction of `calcMinCost` once the parse has succeeded. -/
theorem calcMinCost_ok_eq (order : List (String × ℤ)) {st : OrderAgg}
    (hst : parseOrder order emptyAgg = .ok st) :
    calcMinCost order =
      if st.items = [] then .ok 0
      else
        match minOverall (travelCost DISTANCES) st with
        | ⊤ => .error "No valid delivery path found for the order."
        | (m : ℚ) => .ok (pyRound m) := by
  unfold calcMinCost calcMinCostT
  rw [hst]

/-- Reduction of `calcMinCost` once the parse has failed. -/
theorem calcMinCost_err_eq (order : List (String × ℤ)) {e : String}
    (hst : parseOrder order emptyAgg = .error e) :
    calcMinCost order = .error e := by
  unfold calcMinCost calcMinCostT
  rw [hst]

/-- Reduction of the netlify core once its parse has succeeded. -/
theorem calcMinCostN_ok_eq (order : List (String × ℤ)) {st : OrderAgg}
    (hst : parseOrderN order emptyAgg = .ok st) :
    calcMinCostN order =
      if st.items = [] then .ok 0
      else
        match minOverall (travelCostN DISTANCES) st with
        | ⊤ => .error "No valid delivery path found."
        | (m : ℚ) => .ok (pyRound m) := by
  unfold calcMinCostN
  rw [hst]

/-- Reduction of the netlify core once its parse has failed. -/
theorem calcMinCostN_err_eq (order : List (String × ℤ)) {e : String}
    (hst : parseOrderN order emptyAgg = .error e) :
    calcMinCostN order = .error e := by
  unfold calcMinCostN
  rw [hst]

/-- C5: with the documented catalog and distance table, every valid
order (known products, non-negative integer quantities) produces a
cost; the infeasibility branch is never taken. -/
theorem valid_order_feasible (order : List (String × ℤ))
    (hval : ∀ e ∈ order, 0 ≤ e.2 ∧ (productFind e.1).isSome) :
    ∃ c : ℤ, calcMinCost order = .ok c := by
  rcases parse_ok_of_valid order emptyAgg hval with ⟨st, hst⟩
  rw [calcMinCost_ok_eq order hst]
  by_cases hi : st.items = []
  · rw [if_pos hi]
    exact ⟨0, rfl⟩
  · rw [if_neg hi]
    cases hm : minOverall (travelCost DISTANCES) st with
    | top => exact absurd hm (minOverall_ne_top st)
    | coe m => exact ⟨pyRound m, rfl⟩

/-- Witness for C5 on the order `{A: 2, G: 1}`. -/
theorem valid_order_feasible_witness :
    (∀ e ∈ [(("A" : String), (2 : ℤ)), (("G" : String), (1 : ℤ))],
        0 ≤ e.2 ∧ (productFind e.1).isSome) ∧
      ∃ c : ℤ,
        calcMinCost [(("A" : String), (2 : ℤ)), (("G" : String), (1 : ℤ))] =
          .ok c :=
  ⟨by simp [productFind, PRODUCTS], valid_order_feasible _
    (by simp [productFind, PRODUCTS])⟩

/-! ## Claim C6: one final rounding of the exact minimum -/

theorem parse_items_mono :
    ∀ (l : List (String × ℤ)) (st st' : OrderAgg),
      parseOrder l st = .ok st' → ∃ t, st'.items = st.items ++ t := by
  intro l
  induction l with
  | nil =>
      intro st st' h
      simp only [parseOrder] at h
      cases h
      exact ⟨[], by simp⟩
  | cons e rest ih =>
      intro st st' h
      obtain ⟨p, q⟩ := e
      simp only [parseOrder] at h
      split_ifs at h with h1 h2
      · exact ih st st' h
      · cases hf : productFind p with
        | none => rw [hf] at h; cases h
        | some info =>
            rw [hf] at h
            rcases ih _ st' h with ⟨t, ht⟩
            exact ⟨p :: t, by simp [ht, addItem]⟩

theorem parse_items_ne :
    ∀ (l : List (String × ℤ)) (st st' : OrderAgg),
      parseOrder l st = .ok st' → (∃ e ∈ l, 1 ≤ e.2) → st'.items ≠ [] := by
  intro l
  induction l with
  | nil =>
      intro st st' _ hex
      rcases hex with ⟨e, he, _⟩
      cases he
  | cons e rest ih =>
      intro st st' h hex
      obtain ⟨p, q⟩ := e
      simp only [parseOrder] at h
      split_ifs at h with h1 h2
      · apply ih st st' h
        rcases hex with ⟨e, he, h1e⟩
        rcases List.mem_cons.mp he with rfl | hmem
        · exact absurd h1e (by omega)
        · exact ⟨e, hmem, h1e⟩
      · cases hf : productFind p with
        | none => rw [hf] at h; cases h
        | some info =>
            rw [hf] at h
            rcases parse_items_mono rest _ st' h with ⟨t, ht⟩
            rw [ht]
            simp [addItem]

/-- C6: for every valid order the calculation succeeds with a
non-negative integer; if the order has no positive entry the result
is 0, and otherwise the result is obtained by applying `pyRound` —
Python's nearest-integer (ties-to-even) rounding — exactly once to the
exact rational minimum `minOverall` of the unrounded search. -/
theorem final_cost_rounded_once (order : List (String × ℤ))
    (hval : ∀ e ∈ order, 0 ≤ e.2 ∧ (productFind e.1).isSome) :
    ∃ c : ℤ, calcMinCost order = .ok c ∧ 0 ≤ c ∧
      ((¬∃ e ∈ order, 1 ≤ e.2) → c = 0) ∧
      ((∃ e ∈ order, 1 ≤ e.2) →
        ∃ st m, parseOrder order emptyAgg = .ok st ∧
          minOverall (travelCost DISTANCES) st = ((m : ℚ) : WithTop ℚ) ∧
          0 ≤ m ∧ c = pyRound m ∧ |((c : ℤ) : ℚ) - m| ≤ 1/2) := by
  rcases parse_ok_of_valid order emptyAgg hval with ⟨st, hst⟩
  by_cases hpos : ∃ e ∈ order, 1 ≤ e.2
  · have hitems : st.items ≠ [] := parse_items_ne order emptyAgg st hst hpos
    cases hm : minOverall (travelCost DISTANCES) st with
    | top => exact absurd hm (minOverall_ne_top st)
    | coe m =>
        have hm' : minOverall (travelCost DISTANCES) st = ((m : ℚ) : WithTop ℚ) := hm
        have hm0 : (0 : ℚ) ≤ m := by
          have := minOverall_nonneg st
          rw [hm'] at this
          exact_mod_cast this
        refine ⟨pyRound m, ?_, pyRound_nonneg hm0, fun h => absurd hpos h, ?_⟩
        · rw [calcMinCost_ok_eq order hst, if_neg hitems, hm]
        · intro _
          exact ⟨st, m, hst, hm', hm0, rfl, pyRound_close m⟩
  · have hzero : ∀ e ∈ order, e.2 = (0 : ℤ) := by
      intro e he
      have h1 := (hval e he).1
      by_contra hne
      exact hpos ⟨e, he, by omega⟩
    have : parseOrder order emptyAgg = .ok emptyAgg := parse_zero order emptyAgg hzero
    refine ⟨0, ?_, le_rfl, fun _ => rfl, fun h => absurd h hpos⟩
    rw [calcMinCost_ok_eq order this]
    rfl

/-- Witness for C6 on the order `{H: 3}`. -/
theorem final_cost_rounded_once_witness :
    (∀ e ∈ [(("H" : String), (3 : ℤ))], 0 ≤ e.2 ∧ (productFind e.1).isSome) ∧
      ∃ c : ℤ, calcMinCost [(("H" : String), (3 : ℤ))] = .ok c ∧ 0 ≤ c ∧
        ((¬∃ e ∈ [(("H" : String), (3 : ℤ))], 1 ≤ e.2) → c = 0) ∧
        ((∃ e ∈ [(("H" : String), (3 : ℤ))], 1 ≤ e.2) →
          ∃ st m, parseOrder [(("H" : String), (3 : ℤ))] emptyAgg = .ok st ∧
            minOverall (travelCost DISTANCES) st = ((m : ℚ) : WithTop ℚ) ∧
            0 ≤ m ∧ c = pyRound m ∧ |((c : ℤ) : ℚ) - m| ≤ 1/2) :=
  ⟨by simp [productFind, PRODUCTS], final_cost_rounded_once _
    (by simp [productFind, PRODUCTS])⟩

/-! ## Claim C9: the two deployment copies agree -/

theorem parse_toOption :
    ∀ (l : List (String × ℤ)) (st : OrderAgg),
      (parseOrderN l st).toOption = (parseOrder l st).toOption := by
  intro l
  induction l with
  | nil => intro st; rfl
  | cons e rest ih =>
      intro st
      obtain ⟨p, q⟩ := e
      simp only [parseOrder, parseOrderN]
      split_ifs
      · rfl
      · exact ih st
      · cases productFind p with
        | none => rfl
        | some info => exact ih _

/-- C9: the duplicated core of the netlify entry point succeeds on
exactly the same orders as the `src/app.py` core and returns the same
cost whenever either succeeds (their error strings differ slightly,
their success behaviour does not). -/
theorem duplicated_cores_agree (order : List (String × ℤ)) :
    (calcMinCostN order).toOption = (calcMinCost order).toOption := by
  have hp := parse_toOption order emptyAgg
  have htc : travelCostN DISTANCES = travelCost DISTANCES :=
    funext fun a => funext fun b => funext fun w => travelCostN_eq a b w
  cases hN : parseOrderN order emptyAgg with
  | error e =>
      cases hA : parseOrder order emptyAgg with
      | error e' =>
          rw [calcMinCostN_err_eq order hN, calcMinCost_err_eq order hA]
          rfl
      | ok st => rw [hN, hA] at hp; cases hp
  | ok st =>
      cases hA : parseOrder order emptyAgg with
      | error e' => rw [hN, hA] at hp; cases hp
      | ok st' =>
          rw [hN, hA] at hp
          have hst : st = st' := by
            simpa [Except.toOption] using hp
          subst hst
          rw [calcMinCostN_ok_eq order hN, calcMinCost_ok_eq order hA, htc]
          by_cases hi : st.items = []
          · rw [if_pos hi, if_pos hi]
          · rw [if_neg hi, if_neg hi]
            cases minOverall (travelCost DISTANCES) st with
            | top => rfl
            | coe m => rfl

/-! ## Claim C4: list and sum helpers -/

theorem centers_ne_hub {c : Loc} (h : c ∈ CENTERS) : c ≠ L1 := by
  intro hc
  rw [hc] at h
  exact absurd h (by decide)

theorem mem_pickupList {st : OrderAgg} {s c : Loc} :
    c ∈ pickupList st s ↔ c ∈ CENTERS ∧ st.needed c = true ∧ c ≠ s := by
  unfold pickupList
  rw [List.mem_filter, Bool.and_eq_true, decide_eq_true_eq]

theorem one_lt_length_of_two_mem {α : Type} {l : List α} {a b : α}
    (ha : a ∈ l) (hb : b ∈ l) (hab : a ≠ b) : 1 < l.length := by
  cases l with
  | nil => cases ha
  | cons x t =>
      cases t with
      | nil =>
          simp only [List.mem_singleton] at ha hb
          exact absurd (ha.trans hb.symm) hab
      | cons y t' => simp only [List.length_cons]; omega

theorem filter_perm_insert {P P' : Loc → Bool} {cs : Loc} :
    ∀ l : List Loc, l.Nodup → cs ∈ l → P' cs = true → P cs = false →
      (∀ c, c ≠ cs → P' c = P c) →
      (l.filter P').Perm (cs :: l.filter P) := by
  intro l
  induction l with
  | nil => intro _ h; cases h
  | cons x t ih =>
      intro hnd hmem hP' hP hag
      have hxt : x ∉ t := (List.nodup_cons.mp hnd).1
      have hndt : t.Nodup := (List.nodup_cons.mp hnd).2
      by_cases hx : x = cs
      · subst hx
        have hfilt : t.filter P' = t.filter P :=
          List.filter_congr fun c hc => hag c (fun h => hxt (h ▸ hc))
        rw [List.filter_cons_of_pos hP',
          List.filter_cons_of_neg (by rw [hP]; exact Bool.false_ne_true), hfilt]
      · have hmemt : cs ∈ t := by
          rcases List.mem_cons.mp hmem with h | h
          · exact absurd h.symm hx
          · exact h
        have hPx : P' x = P x := hag x hx
        by_cases hpx : P x = true
        · rw [List.filter_cons_of_pos (hPx.trans hpx),
            List.filter_cons_of_pos hpx]
          exact ((ih hndt hmemt hP' hP hag).cons x).trans (List.Perm.swap cs x _)
        · rw [List.filter_cons_of_neg (by rw [hPx]; exact hpx),
            List.filter_cons_of_neg hpx]
          exact ih hndt hmemt hP' hP hag

theorem sum_filter_zero {P : Loc → Bool} {W : Loc → ℚ} :
    ∀ l : List Loc, (∀ c ∈ l, P c = false → W c = 0) →
      ((l.filter P).map W).sum = (l.map W).sum := by
  intro l
  induction l with
  | nil => intro _; rfl
  | cons x t ih =>
      intro h
      have ht := fun c hc => h c (List.mem_cons_of_mem _ hc)
      by_cases hpx : P x = true
      · rw [List.filter_cons_of_pos hpx]
        simp only [List.map_cons, List.sum_cons]
        rw [ih ht]
      · rw [List.filter_cons_of_neg hpx]
        simp only [List.map_cons, List.sum_cons]
        rw [Bool.not_eq_true] at hpx
        rw [ih ht, h x (List.mem_cons_self _ _) hpx, zero_add]

theorem sum_filter_ne {P : Loc → Bool} {W : Loc → ℚ} {s : Loc} :
    ∀ l : List Loc, l.Nodup → s ∈ l →
      ((l.filter fun c => P c && decide (c ≠ s)).map W).sum =
        ((l.filter P).map W).sum - (if P s = true then W s else 0) := by
  intro l
  induction l with
  | nil => intro _ h; cases h
  | cons x t ih =>
      intro hnd hmem
      have hxt : x ∉ t := (List.nodup_cons.mp hnd).1
      have hndt : t.Nodup := (List.nodup_cons.mp hnd).2
      by_cases hx : x = s
      · subst hx
        have hfilt : (t.filter fun c => P c && decide (c ≠ x)) = t.filter P :=
          List.filter_congr fun c hc => by
            have : c ≠ x := fun h => hxt (h ▸ hc)
            simp [this]
        rw [List.filter_cons_of_neg (by simp), hfilt]
        by_cases hpx : P x = true
        · rw [List.filter_cons_of_pos hpx, if_pos hpx]
          simp only [List.map_cons, List.sum_cons]
          ring
        · rw [List.filter_cons_of_neg hpx, if_neg hpx]
          ring
      · have hmemt : s ∈ t := by
          rcases List.mem_cons.mp hmem with h | h
          · exact absurd h.symm hx
          · exact h
        by_cases hpx : P x = true
        · rw [List.filter_cons_of_pos (by simp [hpx, hx]),
            List.filter_cons_of_pos hpx]
          simp only [List.map_cons, List.sum_cons]
          rw [ih hndt hmemt]
          ring
        · rw [List.filter_cons_of_neg (by simp [hpx]),
            List.filter_cons_of_neg hpx]
          exact ih hndt hmemt

theorem sum_centers {st : OrderAgg} (inv : AggInv st) :
    ((CENTERS.filter st.needed).map st.wfc).sum = st.total := by
  rw [sum_filter_zero CENTERS fun c _ h => inv.not_needed c h]
  simp [CENTERS]
  rw [inv.total_eq]
  ring

theorem sum_pickup {st : OrderAgg} (inv : AggInv st) {s : Loc} (hs : s ∈ CENTERS) :
    ((pickupList st s).map st.wfc).sum = st.total - st.wfc s := by
  unfold pickupList
  rw [sum_filter_ne CENTERS (by decide) hs, sum_centers inv]
  by_cases hn : st.needed s = true
  · rw [if_pos hn]
  · rw [if_neg hn]
    rw [Bool.not_eq_true] at hn
    rw [inv.not_needed s hn]

theorem pickupList_ne_nil_of_two {st : OrderAgg} {s : Loc} (hs : s ∈ CENTERS)
    (hlen : 1 < (CENTERS.filter st.needed).length) : pickupList st s ≠ [] := by
  intro hp
  rcases hl : CENTERS.filter st.needed with _ | ⟨x, _ | ⟨y, t⟩⟩ <;>
    rw [hl] at hlen <;> try simp at hlen
  have hnd : (CENTERS.filter st.needed).Nodup := List.Nodup.filter _ (by decide)
  rw [hl] at hnd
  have hxy : x ≠ y := by
    rcases List.nodup_cons.mp hnd with ⟨hx, _⟩
    exact fun h => hx (h ▸ List.mem_cons_self _ _)
  have hxm : x ∈ CENTERS.filter st.needed := hl ▸ List.mem_cons_self _ _
  have hym : y ∈ CENTERS.filter st.needed :=
    hl ▸ List.mem_cons_of_mem _ (List.mem_cons_self _ _)
  obtain ⟨hxC, hxn⟩ := List.mem_filter.mp hxm
  obtain ⟨hyC, hyn⟩ := List.mem_filter.mp hym
  by_cases hxs : x = s
  · have : y ∈ pickupList st s :=
      mem_pickupList.mpr ⟨hyC, hyn, fun h => hxy (hxs.trans h.symm)⟩
    rw [hp] at this
    cases this
  · have : x ∈ pickupList st s := mem_pickupList.mpr ⟨hxC, hxn, hxs⟩
    rw [hp] at this
    cases this

/-! ## Claim C4: the stop-deletion inequality -/

/-- Deleting one center `cs` (with no weight in the smaller problem)
from a route can only lower its cost: the merged leg obeys the
triangle inequality through `cs`, and every remaining leg carries no
more weight.  `F`/`F'` are the weights of the final leg into the hub;
the sum hypothesis says the route actually picks up everything that is
missing from the carried weight `w'`. -/
theorem restCost_del {W W' : Loc → ℚ} {F F' : ℚ} {cs : Loc} (hcs : cs ≠ L1)
    (hW : ∀ c, W c ≤ W' c) (hW' : ∀ c, 0 ≤ W' c) (hF : F ≤ F')
    (hFd : F = F' - W' cs) :
    ∀ (u v : List Loc) (a : Loc) (w w' : ℚ), w ≤ w' →
      w' + ((u ++ cs :: v).map W').sum = F' →
      restCost W F a w (u ++ v) ≤ restCost W' F' a w' (u ++ cs :: v) := by
  intro u
  induction u with
  | nil =>
      intro v a w w' hw hsum
      simp only [List.nil_append, List.map_cons, List.sum_cons] at hsum
      cases v with
      | nil =>
          simp only [List.map_nil, List.sum_nil, add_zero] at hsum
          have hw' : w' = F := by rw [hFd]; linarith
          rw [List.nil_append, List.nil_append, restCost_nil, restCost_cons,
            restCost_nil]
          have h1 : qtravel a L1 F ≤ qtravel a cs F + qtravel cs L1 F :=
            qtravel_triangle a cs L1 hcs F
          have h2 : qtravel a cs F = qtravel a cs w' := by rw [hw']
          have h3 : qtravel cs L1 F ≤ qtravel cs L1 F' :=
            qtravel_mono _ _ hF
          linarith
      | cons b v' =>
          rw [List.nil_append, List.nil_append, restCost_cons, restCost_cons,
            restCost_cons]
          have h1 : qtravel a b w ≤ qtravel a b w' := qtravel_mono _ _ hw
          have h2 : qtravel a b w' ≤ qtravel a cs w' + qtravel cs b w' :=
            qtravel_triangle a cs b hcs w'
          have h3 : qtravel cs b w' ≤ qtravel cs b (w' + W' cs) :=
            qtravel_mono _ _ (by have := hW' cs; linarith)
          have h4 : restCost W F b (w + W b) v' ≤
              restCost W' F' b (w' + W' cs + W' b) v' :=
            restCost_mono hW v' b
              (by have := hW b; have := hW' cs; linarith) hF
          linarith
  | cons x u' ih =>
      intro v a w w' hw hsum
      simp only [List.cons_append, List.map_cons, List.sum_cons] at hsum
      rw [List.cons_append, List.cons_append, restCost_cons, restCost_cons]
      apply add_le_add (qtravel_mono _ _ hw)
      apply ih v x (w + W x) (w' + W' x) (by have := hW x; linarith)
      simp only [List.map_append, List.sum_append, List.map_cons,
        List.sum_cons] at hsum ⊢
      linarith

/-! ## Claim C4: how two aggregation states differ when one quantity grows -/

/-- The relation between the aggregation states of two orders that
differ only in one product's quantity: extra weight `δ ≥ 0` at its
home center `cs`, the total grown by the same `δ`, and the needed set
either unchanged or extended by exactly `cs` (in which case the
smaller state has no weight there). -/
structure AggRel (cs : Loc) (δ : ℚ) (st st' : OrderAgg) : Prop where
  cs_mem : cs ∈ CENTERS
  δ_nonneg : 0 ≤ δ
  wfc_eq : ∀ c, c ≠ cs → st'.wfc c = st.wfc c
  wfc_cs : st'.wfc cs = st.wfc cs + δ
  total_eq : st'.total = st.total + δ
  needed_eq : ∀ c, c ≠ cs → st'.needed c = st.needed c
  needed_cs : st'.needed cs = st.needed cs ∨
    (st'.needed cs = true ∧ st.needed cs = false ∧ st.wfc cs = 0)
  items_ne : st.items ≠ [] → st'.items ≠ []

theorem AggRel.wfc_le {cs : Loc} {δ : ℚ} {st st' : OrderAgg}
    (h : AggRel cs δ st st') : ∀ c, st.wfc c ≤ st'.wfc c := by
  intro c
  by_cases hc : c = cs
  · rw [hc, h.wfc_cs]
    linarith [h.δ_nonneg]
  · rw [h.wfc_eq c hc]

theorem AggRel.total_le {cs : Loc} {δ : ℚ} {st st' : OrderAgg}
    (h : AggRel cs δ st st') : st.total ≤ st'.total := by
  rw [h.total_eq]
  linarith [h.δ_nonneg]

theorem AggRel.needed_imp {cs : Loc} {δ : ℚ} {st st' : OrderAgg}
    (h : AggRel cs δ st st') : ∀ c, st.needed c = true → st'.needed c = true := by
  intro c hc
  by_cases hcc : c = cs
  · subst hcc
    rcases h.needed_cs with heq | ⟨_, hf, _⟩
    · rw [heq, hc]
    · rw [hc] at hf; cases hf
  · rw [h.needed_eq c hcc, hc]

theorem AggRel_addItem {cs : Loc} {δ : ℚ} {st st' : OrderAgg}
    (h : AggRel cs δ st st') (p : String) (info : ProductInfo) (q : ℤ) :
    AggRel cs δ (addItem st p info q) (addItem st' p info q) := by
  refine ⟨h.cs_mem, h.δ_nonneg, ?_, ?_, ?_, ?_, ?_, ?_⟩
  · intro c hc
    simp only [addItem]
    split_ifs
    · rw [h.wfc_eq c hc]
    · rw [h.wfc_eq c hc]
  · simp only [addItem]
    split_ifs
    · rw [h.wfc_cs]; ring
    · rw [h.wfc_cs]
  · simp only [addItem]
    rw [h.total_eq]; ring
  · intro c hc
    simp only [addItem]
    rw [h.needed_eq c hc]
  · simp only [addItem]
    rcases h.needed_cs with heq | ⟨ht, hf, hw⟩
    · left; rw [heq]
    · by_cases hcc : cs = info.center
      · left
        rw [ht, hf]
        simp [hcc]
      · right
        refine ⟨by rw [ht]; simp, by rw [hf]; simp [hcc], ?_⟩
        rw [if_neg hcc]
        exact hw
  · intro _
    simp [addItem]

theorem AggRel_parse {cs : Loc} {δ : ℚ} :
    ∀ (l : List (String × ℤ)) (st st' st₂ st₂' : OrderAgg),
      AggRel cs δ st st' → parseOrder l st = .ok st₂ →
      parseOrder l st' = .ok st₂' → AggRel cs δ st₂ st₂' := by
  intro l
  induction l with
  | nil =>
      intro st st' st₂ st₂' hr h h'
      simp only [parseOrder] at h h'
      cases h; cases h'
      exact hr
  | cons e rest ih =>
      intro st st' st₂ st₂' hr h h'
      obtain ⟨p, q⟩ := e
      simp only [parseOrder] at h h'
      split_ifs at h h' with h1 h2
      · exact ih st st' st₂ st₂' hr h h'
      · cases hf : productFind p with
        | none => rw [hf] at h; cases h
        | some info =>
            rw [hf] at h h'
            exact ih _ _ st₂ st₂' (AggRel_addItem hr p info q) h h'

theorem parse_append :
    ∀ (l1 l2 : List (String × ℤ)) (st : OrderAgg),
      parseOrder (l1 ++ l2) st =
        (parseOrder l1 st).bind (fun s => parseOrder l2 s) := by
  intro l1
  induction l1 with
  | nil => intro l2 st; rfl
  | cons e rest ih =>
      intro l2 st
      obtain ⟨p, q⟩ := e
      simp only [List.cons_append, parseOrder]
      split_ifs
      · rfl
      · exact ih l2 st
      · cases productFind p with
        | none => rfl
        | some info => exact ih l2 _

/-- Building the relation at the entry whose quantity differs. -/
theorem AggRel_step {p : String} {info : ProductInfo} {q q' : ℤ}
    (s₁ : OrderAgg) (inv₁ : AggInv s₁) (hfind : productFind p = some info)
    (hq0 : 0 ≤ q) (hqq : q ≤ q') :
    ∃ st₂ st₂', parseOrder [(p, q)] s₁ = .ok st₂ ∧
      parseOrder [(p, q')] s₁ = .ok st₂' ∧
      AggRel info.center (info.weight * ((q' - q : ℤ) : ℚ)) st₂ st₂' := by
  have hcmem := (productFind_mem hfind).1
  have hwpos := (productFind_mem hfind).2
  have hδ : 0 ≤ info.weight * ((q' - q : ℤ) : ℚ) := by
    apply mul_nonneg (le_of_lt hwpos)
    have : (0 : ℤ) ≤ q' - q := by omega
    exact_mod_cast this
  by_cases h0 : q = 0
  · subst h0
    by_cases h0' : q' = 0
    · subst h0'
      refine ⟨s₁, s₁, by simp [parseOrder], by simp [parseOrder],
        ⟨hcmem, hδ, fun c _ => rfl, by push_cast; ring, by push_cast; ring,
          fun c _ => rfl, Or.inl rfl, id⟩⟩
    · have hq'1 : 1 ≤ q' := by omega
      refine ⟨s₁, addItem s₁ p info q', by simp [parseOrder], ?_, ?_⟩
      · simp only [parseOrder]
        rw [if_neg (by omega), if_neg h0', hfind]
      · refine ⟨hcmem, hδ, ?_, ?_, ?_, ?_, ?_, ?_⟩
        · intro c hc
          simp only [addItem]
          rw [if_neg hc]
        · simp only [addItem, if_pos rfl]
          push_cast
          ring
        · simp only [addItem]
          push_cast
          ring
        · intro c hc
          simp only [addItem]
          simp [hc]
        · by_cases hn : s₁.needed info.center = true
          · left
            simp only [addItem]
            rw [hn]
            simp
          · right
            rw [Bool.not_eq_true] at hn
            exact ⟨by simp [addItem], hn, inv₁.not_needed _ hn⟩
        · intro h
          simp [addItem]
  · have hq1 : 1 ≤ q := by omega
    have hq'1 : 1 ≤ q' := by omega
    refine ⟨addItem s₁ p info q, addItem s₁ p info q', ?_, ?_, ?_⟩
    · simp only [parseOrder]
      rw [if_neg (by omega), if_neg h0, hfind]
    · simp only [parseOrder]
      rw [if_neg (by omega), if_neg (by omega), hfind]
    · refine ⟨hcmem, hδ, ?_, ?_, ?_, ?_, Or.inl rfl, ?_⟩
      · intro c hc
        simp only [addItem]
        rw [if_neg hc, if_neg hc]
      · simp only [addItem, if_pos rfl]
        push_cast
        ring
      · simp only [addItem]
        push_cast
        ring
      · intro c _
        rfl
      · intro _
        simp [addItem]

/-! ## Claim C4: dominance of the bigger order's candidates -/

/-- Every Strategy-1 candidate of the bigger order is dominated by a
candidate of the smaller order. -/
theorem dominance_simple {cs : Loc} {δ : ℚ} {st st' : OrderAgg}
    (inv : AggInv st) (inv' : AggInv st') (hr : AggRel cs δ st st')
    {c₀ : Loc} (hc₀C : c₀ ∈ CENTERS) (hc₀ : st.needed c₀ = true)
    {s : Loc} (hs : s ∈ CENTERS) :
    minOverall (travelCost DISTANCES) st ≤
      simpleCost (travelCost DISTANCES) st' s := by
  have hWle := hr.wfc_le
  have hTle := hr.total_le
  rw [simpleCost_eq st' s]
  by_cases hp' : pickupList st' s = []
  · rw [if_pos hp']
    by_cases hc' : st'.needed s = true ∨ CENTERS.filter st'.needed = []
    · rw [if_pos hc']
      have hsub : pickupList st s = [] := by
        cases hq : pickupList st s with
        | nil => rfl
        | cons c t =>
            exfalso
            obtain ⟨hcC, hcn, hcs⟩ :=
              mem_pickupList.mp (hq ▸ List.mem_cons_self c t)
            have hmem : c ∈ pickupList st' s :=
              mem_pickupList.mpr ⟨hcC, hr.needed_imp c hcn, hcs⟩
            rw [hp'] at hmem
            cases hmem
      have hcond : st.needed s = true ∨ CENTERS.filter st.needed = [] := by
        left
        by_cases hc₀s : c₀ = s
        · rw [← hc₀s]; exact hc₀
        · exfalso
          have hmem : c₀ ∈ pickupList st s :=
            mem_pickupList.mpr ⟨hc₀C, hc₀, hc₀s⟩
          rw [hsub] at hmem
          cases hmem
      refine le_trans (minOverall_le_qcostA st hs
        (by rw [hsub] : ([] : List Loc).Perm (pickupList st s))
        fun _ => hcond) ?_
      rw [WithTop.coe_le_coe]
      exact restCost_mono hWle [] s (hWle s) hTle
    · rw [if_neg hc']
      exact le_top
  · rw [if_neg hp']
    apply le_minList
    intro x hx
    rcases List.mem_map.mp hx with ⟨π', hπ'mem, rfl⟩
    have hπ' : π'.Perm (pickupList st' s) := List.mem_permutations.mp hπ'mem
    have hπ'ne : π' ≠ [] := by
      intro h
      exact hp' ((h ▸ hπ' : ([] : List Loc).Perm _).symm.eq_nil)
    rcases hr.needed_cs with hsame | ⟨hnt, hnf, hw0⟩
    · have hNeq : ∀ c, st'.needed c = st.needed c := fun c => by
        by_cases hc : c = cs
        · rw [hc]; exact hsame
        · exact hr.needed_eq c hc
      have hpl : pickupList st' s = pickupList st s := by
        unfold pickupList
        exact List.filter_congr fun c _ => by rw [hNeq c]
      refine le_trans
        (minOverall_le_qcostA st hs (hpl ▸ hπ') fun h => absurd h hπ'ne) ?_
      rw [WithTop.coe_le_coe]
      exact restCost_mono hWle π' s (hWle s) hTle
    · by_cases hcss : cs = s
      · have hpl : pickupList st' s = pickupList st s := by
          unfold pickupList
          refine List.filter_congr fun c _ => ?_
          by_cases hcc : c = cs
          · rw [hcc, hcss]; simp
          · rw [hr.needed_eq c hcc]
        refine le_trans
          (minOverall_le_qcostA st hs (hpl ▸ hπ') fun h => absurd h hπ'ne) ?_
        rw [WithTop.coe_le_coe]
        exact restCost_mono hWle π' s (hWle s) hTle
      · have hcsC := hr.cs_mem
        have hcsL1 := centers_ne_hub hcsC
        have hged : cs ∈ pickupList st' s :=
          mem_pickupList.mpr ⟨hcsC, hnt, hcss⟩
        have hcsπ : cs ∈ π' := hπ'.mem_iff.mpr hged
        rcases List.append_of_mem hcsπ with ⟨u, v, rfl⟩
        have hperm2 : (pickupList st' s).Perm (cs :: pickupList st s) := by
          unfold pickupList
          apply filter_perm_insert CENTERS (by decide) hcsC
          · simp [hnt, hcss]
          · simp [hnf]
          · intro c hc
            rw [hr.needed_eq c hc]
        have hπ : (u ++ v).Perm (pickupList st s) :=
          ((List.perm_middle.symm.trans hπ').trans hperm2).cons_inv
        have hsum : st'.wfc s + ((u ++ cs :: v).map st'.wfc).sum = st'.total := by
          have hs1 : ((u ++ cs :: v).map st'.wfc).sum =
              ((pickupList st' s).map st'.wfc).sum :=
            (hπ'.map st'.wfc).sum_eq
          rw [hs1, sum_pickup inv' hs]
          ring
        have hFd : st.total = st'.total - st'.wfc cs := by
          have h1 := hr.total_eq
          have h2 := hr.wfc_cs
          linarith [hw0]
        have hemp : (u ++ v) = [] →
            (st.needed s = true ∨ CENTERS.filter st.needed = []) := by
          intro hnil
          left
          have hps : pickupList st s = [] :=
            (hnil ▸ hπ : ([] : List Loc).Perm _).symm.eq_nil
          by_cases hc₀s : c₀ = s
          · rw [← hc₀s]; exact hc₀
          · exfalso
            have hmem : c₀ ∈ pickupList st s :=
              mem_pickupList.mpr ⟨hc₀C, hc₀, hc₀s⟩
            rw [hps] at hmem
            cases hmem
        refine le_trans (minOverall_le_qcostA st hs hπ hemp) ?_
        rw [WithTop.coe_le_coe]
        exact restCost_del hcsL1 hWle inv'.wfc_nonneg hTle hFd u v s
          (st.wfc s) (st'.wfc s) (hWle s) hsum

/-- Every Strategy-2 candidate of the bigger order is dominated by a
candidate of the smaller order. -/
theorem dominance_strategy2 {cs : Loc} {δ : ℚ} {st st' : OrderAgg}
    (inv : AggInv st) (inv' : AggInv st') (hr : AggRel cs δ st st')
    {s : Loc} (hs : s ∈ CENTERS) :
    minOverall (travelCost DISTANCES) st ≤
      partialCost (travelCost DISTANCES) st' s := by
  have hWle := hr.wfc_le
  have hTle := hr.total_le
  rw [partialCost_eq st' s]
  by_cases h1' : 0 < st'.wfc s ∧ 1 < (CENTERS.filter st'.needed).length
  case neg => rw [if_neg h1']; exact le_top
  rw [if_pos h1']
  obtain ⟨hw', hlen'⟩ := h1'
  have hrne : pickupList st' s ≠ [] := pickupList_ne_nil_of_two hs hlen'
  rw [if_neg hrne]
  apply le_minList
  intro x hx
  rcases List.mem_map.mp hx with ⟨π', hπ'mem, rfl⟩
  have hπ' : π'.Perm (pickupList st' s) := List.mem_permutations.mp hπ'mem
  have hπ'ne : π' ≠ [] := by
    intro h
    exact hrne ((h ▸ hπ' : ([] : List Loc).Perm _).symm.eq_nil)
  have hn's : st'.needed s = true := by
    by_contra hh
    rw [Bool.not_eq_true] at hh
    have := inv'.not_needed s hh
    linarith
  rcases hr.needed_cs with hsame | ⟨hnt, hnf, hw0⟩
  · -- the needed sets agree
    have hNeq : ∀ c, st'.needed c = st.needed c := fun c => by
      by_cases hc : c = cs
      · rw [hc]; exact hsame
      · exact hr.needed_eq c hc
    have hpl : pickupList st' s = pickupList st s := by
      unfold pickupList
      exact List.filter_congr fun c _ => by rw [hNeq c]
    have hns : st.needed s = true := by rw [← hNeq s]; exact hn's
    have hws : 0 < st.wfc s := inv.needed_pos s hns
    have hlen : 1 < (CENTERS.filter st.needed).length := by
      have heq : CENTERS.filter st'.needed = CENTERS.filter st.needed :=
        List.filter_congr fun c _ => hNeq c
      rw [← heq]
      exact hlen'
    refine le_trans (minOverall_le_qcostB st hs hws hlen (hpl ▸ hπ')) ?_
    rw [WithTop.coe_le_coe]
    have hfin : st.total - st.wfc s ≤ st'.total - st'.wfc s := by
      by_cases hscs : s = cs
      · subst hscs
        have h1 := hr.total_eq
        have h2 := hr.wfc_cs
        linarith
      · rw [hr.wfc_eq s hscs]
        linarith [hr.total_eq, hr.δ_nonneg]
    exact add_le_add (qtravel_mono _ _ (hWle s))
      (restCost_mono hWle π' L1 le_rfl hfin)
  · by_cases hcss : cs = s
    · -- the new center is the start of the partial route itself
      subst hcss
      have hpl : pickupList st' cs = pickupList st cs := by
        unfold pickupList
        refine List.filter_congr fun c _ => ?_
        by_cases hcc : c = cs
        · rw [hcc]; simp
        · rw [hr.needed_eq c hcc]
      cases π' with
      | nil => exact absurd rfl hπ'ne
      | cons n₁ ρ =>
          have hn₁p : n₁ ∈ pickupList st cs := by
            rw [← hpl]
            exact hπ'.mem_iff.mp (List.mem_cons_self _ _)
          obtain ⟨hn₁C, hn₁n, hn₁s⟩ := mem_pickupList.mp hn₁p
          have hperm1 : (pickupList st cs).Perm (n₁ :: pickupList st n₁) := by
            unfold pickupList
            apply filter_perm_insert CENTERS (by decide) hn₁C
            · simp [hn₁n, hn₁s]
            · simp
            · intro c hc
              by_cases hccs : c = cs
              · subst hccs
                simp [hnf]
              · simp [hccs, hc]
          have hρ : ρ.Perm (pickupList st n₁) := by
            have hchain : (n₁ :: ρ).Perm (n₁ :: pickupList st n₁) :=
              (hπ'.trans (hpl ▸ List.Perm.refl _)).trans hperm1
            exact hchain.cons_inv
          refine le_trans
            (minOverall_le_qcostA st hn₁C hρ fun _ => Or.inl hn₁n) ?_
          rw [WithTop.coe_le_coe]
          show restCost st.wfc st.total n₁ (st.wfc n₁) ρ ≤ _
          rw [qcostB, restCost_cons]
          have hTT : st.total = st'.total - st'.wfc cs := by
            linarith [hr.total_eq, hr.wfc_cs, hw0]
          have hmono : restCost st.wfc st.total n₁ (st.wfc n₁) ρ ≤
              restCost st'.wfc (st'.total - st'.wfc cs) n₁ (0 + st'.wfc n₁) ρ :=
            restCost_mono hWle ρ n₁ (by linarith [hWle n₁]) (by linarith)
          have h0s := qtravel_nonneg cs L1 (st'.wfc cs)
          have h0n := qtravel_nonneg L1 n₁ 0
          linarith
    · -- the new center is another stop of the second trip
      have hscs : s ≠ cs := fun h => hcss h.symm
      have hns : st.needed s = true := by
        rw [← hr.needed_eq s hscs]
        exact hn's
      have hws : 0 < st.wfc s := inv.needed_pos s hns
      have hwseq : st'.wfc s = st.wfc s := hr.wfc_eq s hscs
      by_cases hlen : 1 < (CENTERS.filter st.needed).length
      · have hcsC := hr.cs_mem
        have hcsL1 := centers_ne_hub hcsC
        have hged : cs ∈ pickupList st' s :=
          mem_pickupList.mpr ⟨hcsC, hnt, hcss⟩
        have hcsπ : cs ∈ π' := hπ'.mem_iff.mpr hged
        rcases List.append_of_mem hcsπ with ⟨u, v, rfl⟩
        have hperm2 : (pickupList st' s).Perm (cs :: pickupList st s) := by
          unfold pickupList
          apply filter_perm_insert CENTERS (by decide) hcsC
          · simp [hnt, hcss]
          · simp [hnf]
          · intro c hc
            rw [hr.needed_eq c hc]
        have hπ : (u ++ v).Perm (pickupList st s) :=
          ((List.perm_middle.symm.trans hπ').trans hperm2).cons_inv
        refine le_trans (minOverall_le_qcostB st hs hws hlen hπ) ?_
        rw [WithTop.coe_le_coe]
        rw [qcostB, qcostB, hwseq]
        apply add_le_add le_rfl
        have hsum :
            (0 : ℚ) + ((u ++ cs :: v).map st'.wfc).sum =
              st'.total - st.wfc s := by
          have hs1 : ((u ++ cs :: v).map st'.wfc).sum =
              ((pickupList st' s).map st'.wfc).sum :=
            (hπ'.map st'.wfc).sum_eq
          rw [hs1, sum_pickup inv' hs, hwseq, zero_add]
        apply restCost_del hcsL1 hWle inv'.wfc_nonneg ?_ ?_ u v L1 0 0 le_rfl hsum
        · linarith [hr.total_eq, hr.δ_nonneg]
        · linarith [hr.total_eq, hr.wfc_cs, hw0]
      · -- the smaller order needs only the start center
        have hps : pickupList st s = [] := by
          cases hq : pickupList st s with
          | nil => rfl
          | cons c t =>
              exfalso
              obtain ⟨hcC, hcn, hcs⟩ :=
                mem_pickupList.mp (hq ▸ List.mem_cons_self c t)
              have hcm : c ∈ CENTERS.filter st.needed :=
                List.mem_filter.mpr ⟨hcC, hcn⟩
              have hsm : s ∈ CENTERS.filter st.needed :=
                List.mem_filter.mpr ⟨hs, hns⟩
              exact hlen (one_lt_length_of_two_mem hcm hsm hcs)
        have hT : st.total = st.wfc s := by
          have hsp := sum_pickup inv hs
          rw [hps] at hsp
          simp at hsp
          linarith
        refine le_trans (minOverall_le_qcostA st hs
          (by rw [hps] : ([] : List Loc).Perm (pickupList st s))
          fun _ => Or.inl hns) ?_
        rw [WithTop.coe_le_coe]
        show restCost st.wfc st.total s (st.wfc s) [] ≤ _
        rw [restCost_nil, qcostB, hwseq, hT]
        have h0 := restCost_nonneg st'.wfc (st'.total - st.wfc s) π' L1 0
        linarith

/-- The overall minimum can only grow along `AggRel`. -/
theorem minOverall_rel_mono {cs : Loc} {δ : ℚ} {st st' : OrderAgg}
    (inv : AggInv st) (inv' : AggInv st') (hr : AggRel cs δ st st')
    (hne : st.items ≠ []) :
    minOverall (travelCost DISTANCES) st ≤
      minOverall (travelCost DISTANCES) st' := by
  obtain ⟨c₀, hc₀C, hc₀⟩ := inv_needed_of_items inv hne
  apply le_minOverall
  intro s hs
  exact le_min (dominance_simple inv inv' hr hc₀C hc₀ hs)
    (dominance_strategy2 inv inv' hr hs)

theorem calcMinCost_nonneg_of_parse {order : List (String × ℤ)}
    {st : OrderAgg} (hst : parseOrder order emptyAgg = .ok st) :
    ∃ c : ℤ, calcMinCost order = .ok c ∧ 0 ≤ c := by
  rw [calcMinCost_ok_eq order hst]
  by_cases hi : st.items = []
  · rw [if_pos hi]
    exact ⟨0, rfl, le_rfl⟩
  · rw [if_neg hi]
    cases hm : minOverall (travelCost DISTANCES) st with
    | top => exact absurd hm (minOverall_ne_top st)
    | coe m =>
        refine ⟨pyRound m, rfl, pyRound_nonneg ?_⟩
        have h0 := minOverall_nonneg st
        rw [hm] at h0
        exact_mod_cast h0

/-- C4: increasing one product's quantity, all other entries fixed,
never decreases the computed minimum cost. -/
theorem quantity_monotone (pre post : List (String × ℤ)) (p : String)
    (q q' : ℤ)
    (hval : ∀ e ∈ pre ++ (p, q) :: post, 0 ≤ e.2 ∧ (productFind e.1).isSome)
    (hle : q ≤ q') :
    ∃ c c' : ℤ, calcMinCost (pre ++ (p, q) :: post) = .ok c ∧
      calcMinCost (pre ++ (p, q') :: post) = .ok c' ∧ c ≤ c' := by
  have hmid : ((p, q) : String × ℤ) ∈ pre ++ (p, q) :: post := by simp
  have hq0 : 0 ≤ q := (hval _ hmid).1
  have hfindS : (productFind p).isSome := (hval _ hmid).2
  rcases Option.isSome_iff_exists.mp hfindS with ⟨info, hinfo⟩
  have hval' : ∀ e ∈ pre ++ (p, q') :: post,
      0 ≤ e.2 ∧ (productFind e.1).isSome := by
    intro e he
    rcases List.mem_append.mp he with h | h
    · exact hval e (List.mem_append.mpr (Or.inl h))
    · rcases List.mem_cons.mp h with rfl | h
      · exact ⟨by omega, hfindS⟩
      · exact hval e (by simp [h])
  rcases parse_ok_of_valid (pre ++ (p, q) :: post) emptyAgg hval with ⟨st, hst0⟩
  rcases parse_ok_of_valid (pre ++ (p, q') :: post) emptyAgg hval' with ⟨st', hst0'⟩
  have hinv : AggInv st := parse_inv _ _ _ hst0 aggInv_empty
  have hinv' : AggInv st' := parse_inv _ _ _ hst0' aggInv_empty
  have hst := hst0
  have hst' := hst0'
  rw [parse_append pre ((p, q) :: post) emptyAgg] at hst
  rw [parse_append pre ((p, q') :: post) emptyAgg] at hst'
  cases hpre : parseOrder pre emptyAgg with
  | error e =>
      rw [hpre] at hst
      simp only [Except.bind] at hst
      cases hst
  | ok s₁ =>
      rw [hpre] at hst hst'
      simp only [Except.bind] at hst hst'
      have hinv₁ : AggInv s₁ := parse_inv pre _ _ hpre aggInv_empty
      rcases AggRel_step s₁ hinv₁ hinfo hq0 hle with ⟨st₂, st₂', h2, h2', hrel⟩
      have hst2 : parseOrder ([(p, q)] ++ post) s₁ = .ok st := hst
      have hst2' : parseOrder ([(p, q')] ++ post) s₁ = .ok st' := hst'
      rw [parse_append [(p, q)] post s₁, h2] at hst2
      rw [parse_append [(p, q')] post s₁, h2'] at hst2'
      simp only [Except.bind] at hst2 hst2'
      have hrelf : AggRel info.center (info.weight * ((q' - q : ℤ) : ℚ)) st st' :=
        AggRel_parse post st₂ st₂' st st' hrel hst2 hst2'
      by_cases hitems : st.items = []
      · have hc : calcMinCost (pre ++ (p, q) :: post) = .ok 0 := by
          rw [calcMinCost_ok_eq _ hst0, if_pos hitems]
        rcases calcMinCost_nonneg_of_parse hst0' with ⟨c', hc', hc'0⟩
        exact ⟨0, c', hc, hc', hc'0⟩
      · have hitems' : st'.items ≠ [] := hrelf.items_ne hitems
        cases hm : minOverall (travelCost DISTANCES) st with
        | top => exact absurd hm (minOverall_ne_top st)
        | coe m =>
            cases hm' : minOverall (travelCost DISTANCES) st' with
            | top => exact absurd hm' (minOverall_ne_top st')
            | coe m' =>
                have hmm : m ≤ m' := by
                  have hmono := minOverall_rel_mono hinv hinv' hrelf hitems
                  rw [hm, hm'] at hmono
                  exact_mod_cast hmono
                refine ⟨pyRound m, pyRound m', ?_, ?_, pyRound_mono hmm⟩
                · rw [calcMinCost_ok_eq _ hst0, if_neg hitems, hm]
                · rw [calcMinCost_ok_eq _ hst0', if_neg hitems', hm']

/-- Witness for C4: raising the quantity of product `A` from 1 to 2. -/
theorem quantity_monotone_witness :
    (∀ e ∈ ([] : List (String × ℤ)) ++ (("A" : String), (1 : ℤ)) :: [],
        0 ≤ e.2 ∧ (productFind e.1).isSome) ∧
      (1 : ℤ) ≤ 2 ∧
      ∃ c c' : ℤ,
        calcMinCost (([] : List (String × ℤ)) ++ (("A" : String), (1 : ℤ)) :: []) =
          .ok c ∧
        calcMinCost (([] : List (String × ℤ)) ++ (("A" : String), (2 : ℤ)) :: []) =
          .ok c' ∧ c ≤ c' :=
  ⟨by simp [productFind, PRODUCTS], by simp,
    quantity_monotone [] [] "A" 1 2 (by simp [productFind, PRODUCTS]) (by simp)⟩
